import Mathlib

/-!
# The /dev/poll backend of ivykis (`lib/iv_method_dev_poll.c`)

A shallow embedding of the batched poll backend: the pending-change queue
(`st->dev_poll.notify`), the fd registry (`st->dev_poll.fds`), the flush that
uploads interest changes to the kernel handle, and the translation of the
kernel's answer of `DP_POLL` into readiness events.

Records of type `struct iv_fd_` are referred to by address (`Ptr`); their
contents live in `iv_state.mem`.  The kernel's side of the conversation is
explicit: `iv_state.writes` lists what the next `write(2)` calls on the handle
will answer, and `iv_state.log` lists the calls handed to the kernel so far.
-/

namespace IvDevPoll

/-! ## Constants -/

/-- The constant `UPLOAD_BATCH` of `iv_method_dev_poll.c`: capacity of the batch buffer. -/
def UPLOAD_BATCH : Nat := 1024

/-- Modelled from the spec: the readiness bit `IN`. The header that declares `MASKIN` is not
part of the sources at hand; the spec fixes `IN`, `OUT`, `ERR` as three independent bits. -/
def MASKIN : Nat := 1

/-- Modelled from the spec: the readiness bit `OUT` (see `MASKIN`). -/
def MASKOUT : Nat := 2

/-- Modelled from the spec: the readiness bit `ERR` (see `MASKIN`). -/
def MASKERR : Nat := 4

/-- The input-ready bit of `<sys/poll.h>` on the hosts that have `/dev/poll`. -/
def POLLIN : Nat := 0x0001

/-- The output-ready bit of `<sys/poll.h>`. -/
def POLLOUT : Nat := 0x0004

/-- The error bit of `<sys/poll.h>`. -/
def POLLERR : Nat := 0x0008

/-- The hang-up bit of `<sys/poll.h>`. -/
def POLLHUP : Nat := 0x0010

/-- The removal request of `<sys/devpoll.h>`. -/
def POLLREMOVE : Nat := 0x0800

/-- The errno value of an interrupted system call. -/
def EINTR : Nat := 4

/-- The size in bytes of one `struct pollfd` (`sizeof(pfd[0])`): an `int` and two `short`s. -/
def sizeof_pollfd : Nat := 8

/-! ## Data model -/

/-- Address of a `struct iv_fd_`. -/
abbrev Ptr := Nat

/-- The fields of `struct iv_fd_` that the backend reads or writes. The bands are
non-negative masks over `MASKIN`, `MASKOUT`, `MASKERR`. -/
structure iv_fd_ where
  fd : Int
  wanted_bands : Nat
  registered_bands : Nat
deriving DecidableEq

/-- An entry of the batch buffer as the flush fills it: `pfd[i].fd` and `pfd[i].events`
(the flush never assigns `revents`). -/
structure pollfd where
  fd : Int
  events : Nat
deriving DecidableEq

/-- An entry of the result buffer of `DP_POLL` as the poll reads it: `batch[i].fd` and
`batch[i].revents`. -/
structure dvpoll_entry where
  fd : Int
  revents : Nat
deriving DecidableEq

/-- What one `write(2)` call on the kernel handle answers: either the kernel takes up to
`room` bytes of the `count` bytes offered (the call returns `min room count`, and leaves
`errno` alone), or the call returns -1 with `errno` set. -/
inductive write_result where
  | accepts (room : Nat)
  | fails (errno : Nat)
deriving DecidableEq

/-- One `write(2)` call as issued by `xwrite`: byte offset into the caller's buffer, number of
bytes offered, and the value that `int ret` received. -/
structure write_call where
  off : Nat
  count : Nat
  ret : Int
deriving DecidableEq

/-- What the single `ioctl(DP_POLL)` call answers: a negative return with `errno`, or the
`ret` populated entries of the result buffer. -/
inductive dp_poll_result where
  | error (errno : Nat)
  | events (batch : List dvpoll_entry)
deriving DecidableEq

/-- Calls the backend hands to the kernel handle, at the granularity of the source:
a buffer given to `xwrite` (all of it delivered when `xwrite` returns) and the wait call. -/
inductive Call where
  | xwrite (fd : Int) (pfd : List pollfd)
  | dp_poll (fd : Int) (dp_nfds : Nat) (dp_timeout : Int)
deriving DecidableEq

/-- The places where the source logs with `syslog(LOG_CRIT, ...)` and calls `abort()`. -/
inductive Fatal where
  | xwrite_error (errno : Nat)
  | poll_error (errno : Nat)
  | unknown_fd (fd : Int)
  | register_error
deriving DecidableEq

/-- How a call of the backend ends: it returns; it aborts the process; it is still waiting
for the kernel because the scripted answers have run out; or it stores past the end of the
batch buffer (undefined behaviour in C). -/
inductive Outcome (σ : Type) where
  | returned (s : σ)
  | aborted (why : Fatal)
  | blocked
  | overrun

/-- Sequencing of calls: the continuation runs only after a return. -/
def Outcome.bind {σ τ : Type} : Outcome σ → (σ → Outcome τ) → Outcome τ
  | .returned s, f => f s
  | .aborted why, _ => .aborted why
  | .blocked, _ => .blocked
  | .overrun, _ => .overrun

/-- The part of `struct iv_state` used by this backend (`numfds` and `dev_poll.{fds, poll_fd,
notify}`), the memory holding the `struct iv_fd_` records its pointers refer to, and the
kernel's side: the answers of the coming `write(2)` calls and the log of calls made. -/
structure iv_state where
  numfds : Nat
  fds : List Ptr
  poll_fd : Int
  notify : List Ptr
  mem : Ptr → iv_fd_
  writes : List write_result
  log : List Call

/-- A readiness event: a call `iv_fd_make_ready(active, fd, band)`. -/
abbrev ReadyEvent := Ptr × Nat

/-! ## Collaborators declared outside the sources at hand -/

/-- Modelled from the spec: `list_empty` of `iv_list.h`, which is not part of the sources at
hand. The pending-change queue is an ordered collection of records. -/
def list_empty (l : List Ptr) : Bool := l.isEmpty

/-- Modelled from the spec: `list_del_init` of `iv_list.h`: the node leaves the list it is
on; the other nodes keep their order. A node that is on no list is left alone. -/
def list_del_init (l : List Ptr) (p : Ptr) : List Ptr := l.erase p

/-- Modelled from the spec: `list_add_tail` of `iv_list.h`: the node becomes the last one. -/
def list_add_tail (l : List Ptr) (p : Ptr) : List Ptr := l ++ [p]

/-- Modelled from the spec: `iv_fd_avl_find`, exact-key lookup in the fd registry, whose
nodes are ordered by the `fd` field of their records. -/
def iv_fd_avl_find (st : iv_state) (key : Int) : Option Ptr :=
  st.fds.find? (fun p => decide ((st.mem p).fd = key))

/-- Modelled from the spec: `iv_avl_tree_insert`, which refuses a key that is already in the
registry (`none`) and otherwise adds the node. -/
def iv_avl_tree_insert (st : iv_state) (p : Ptr) : Option (List Ptr) :=
  match iv_fd_avl_find st (st.mem p).fd with
  | some _ => none
  | none => some (st.fds ++ [p])

/-- Modelled from the spec: `iv_avl_tree_delete`: the node leaves the registry. -/
def iv_avl_tree_delete (fds : List Ptr) (p : Ptr) : List Ptr := fds.erase p

/-- Modelled from the spec: `iv_fd_make_ready(active, fd, band)`, declared outside the
sources at hand: the readiness event `(fd, band)` is emitted to the driver's active list. -/
def iv_fd_make_ready (active : List ReadyEvent) (p : Ptr) (band : Nat) : List ReadyEvent :=
  active ++ [(p, band)]

/-- The caller's side of an interest change (the library core assigns `fd->wanted_bands`
before it calls `notify_fd`). -/
def set_wanted_bands (st : iv_state) (p : Ptr) (bands : Nat) : iv_state :=
  { st with mem := Function.update st.mem p { st.mem p with wanted_bands := bands } }

/-- The value of `a & ~b` for non-negative `int`s: the bits of `a` that are not in `b`. -/
def and_not (a b : Nat) : Nat := a ^^^ (a &&& b)

/-! ## The backend -/

/-- The largest value of an `int`. -/
def INT_MAX : Nat := 2147483647

/-- The value that `int ret` holds after `ret = write(...)` when `write` returned the byte
count `r`: the low 32 bits of `r` read as a signed number, so a count above `INT_MAX` may
come out negative or smaller than it is. -/
def to_int (r : Nat) : Int :=
  if r % 2 ^ 32 < 2 ^ 31 then ((r % 2 ^ 32 : Nat) : Int)
  else ((r % 2 ^ 32 : Nat) : Int) - 2 ^ 32

/-- Embedding of `xwrite(fd, buf, count)`. `off` is how far `buf` has advanced, `calls`
collects the `write(2)` calls issued, and `errno` is the value of `errno` as the last failing
call of the thread left it (a call that succeeds leaves it alone). A failing `write` returns
-1 and sets `errno`: `EINTR` repeats the call with the same range, any other value aborts.
A `write` that takes `min room count` bytes leaves `to_int (min room count)` in `int ret`:
when that is negative the code takes it for a failure and reads the stale `errno`; otherwise
`buf` advances and `count` shrinks by `ret`. -/
def xwrite (errno : Nat) (off count : Nat) (calls : List write_call) :
    List write_result → Outcome (List write_call × List write_result)
  | [] => if count = 0 then .returned (calls, []) else .blocked
  | a :: rest =>
    if count = 0 then .returned (calls, a :: rest)
    else
      match a with
      | .fails e =>
        if e = EINTR then xwrite e off count (calls ++ [⟨off, count, -1⟩]) rest
        else .aborted (.xwrite_error e)
      | .accepts room =>
        if to_int (min room count) < 0 then
          if errno = EINTR then
            xwrite errno off count (calls ++ [⟨off, count, to_int (min room count)⟩]) rest
          else .aborted (.xwrite_error errno)
        else
          xwrite errno (off + (to_int (min room count)).toNat)
            (count - (to_int (min room count)).toNat)
            (calls ++ [⟨off, count, to_int (min room count)⟩]) rest

/-- Embedding of `bits_to_poll_mask`. -/
def bits_to_poll_mask (bits : Nat) : Nat :=
  let mask := 0
  let mask := if bits &&& MASKIN ≠ 0 then mask ||| POLLIN else mask
  let mask := if bits &&& MASKOUT ≠ 0 then mask ||| POLLOUT else mask
  mask

/-- The call `xwrite(poll_fd, pfd, num * sizeof(pfd[0]))` of the flush, `pfd` being the
`num` entries stored so far. The buffer holds at most `UPLOAD_BATCH` entries, so no count
that `write` returns is above `INT_MAX`, and the value that `errno` has when the call is
entered is never read (`xwrite_entry_errno`); 0 stands for it. -/
def upload (st : iv_state) (pfd : List pollfd) : Outcome iv_state :=
  (xwrite 0 0 (pfd.length * sizeof_pollfd) [] st.writes).bind fun r =>
    .returned { st with writes := r.2, log := st.log ++ [Call.xwrite st.poll_fd pfd] }

/-- The stores `pfd[num].fd = ...; pfd[num].events = ...; num++` into the buffer
`struct pollfd pfd[UPLOAD_BATCH]`. -/
def pfd_store (pfd : List pollfd) (e : pollfd) : Outcome (List pollfd) :=
  if pfd.length < UPLOAD_BATCH then .returned (pfd ++ [e]) else .overrun

/-- The head of the loop body of `iv_dev_poll_flush_pending`:
`if (num > UPLOAD_BATCH - 2) { xwrite(poll_fd, pfd, num * sizeof(pfd[0])); num = 0; }`. -/
def flush_room (st : iv_state) (pfd : List pollfd) : Outcome (iv_state × List pollfd) :=
  if pfd.length > UPLOAD_BATCH - 2 then
    (upload st pfd).bind fun st1 => .returned (st1, [])
  else .returned (st, pfd)

/-- The two conditional stores of the loop body of `iv_dev_poll_flush_pending` for the
record `fd`: the removal entry, then the entry carrying the wanted interest. -/
def flush_stores (fd : iv_fd_) (pfd : List pollfd) : Outcome (List pollfd) :=
  (if and_not fd.registered_bands fd.wanted_bands ≠ 0 then
      pfd_store pfd ⟨fd.fd, POLLREMOVE⟩
    else .returned pfd).bind fun pfd2 =>
  if fd.wanted_bands ≠ 0 then
    pfd_store pfd2 ⟨fd.fd, bits_to_poll_mask fd.wanted_bands⟩
  else .returned pfd2

/-- One iteration of the loop of `iv_dev_poll_flush_pending`, for the head `p` of the queue
and the remaining queue `rest`: make room, unlink the head, store its entries, and set
`fd->registered_bands = fd->wanted_bands`. -/
def flush_step (p : Ptr) (rest : List Ptr) (st : iv_state) (pfd : List pollfd) :
    Outcome (iv_state × List pollfd) :=
  (flush_room st pfd).bind fun r1 =>
  let st2 : iv_state := { r1.1 with notify := rest }
  let fd := st2.mem p
  (flush_stores fd r1.2).bind fun pfd3 =>
  .returned
    ({ st2 with
        mem := Function.update st2.mem p { fd with registered_bands := fd.wanted_bands } },
     pfd3)

/-- The loop `while (!list_empty(&st->dev_poll.notify))` of `iv_dev_poll_flush_pending`,
followed by the final `if (num) xwrite(...)`. The queue is not empty when it is `p :: rest`;
then `lh = st->dev_poll.notify.next` is `p`, and `list_del_init(lh)` leaves `rest`. The buffer
`pfd` with its fill count `num` is the list of the `num` entries stored so far. -/
def flush_loop : List Ptr → iv_state → List pollfd → Outcome iv_state
  | [], st, pfd => if pfd.length ≠ 0 then upload st pfd else .returned st
  | p :: rest, st, pfd =>
    (flush_step p rest st pfd).bind fun r => flush_loop rest r.1 r.2

/-- Embedding of `iv_dev_poll_flush_pending`. -/
def iv_dev_poll_flush_pending (st : iv_state) : Outcome iv_state :=
  flush_loop st.notify st []

/-- The three tests on `revents` in the loop body of `iv_dev_poll_poll`, for the record `p`
that the registry returned. -/
def poll_ready (active : List ReadyEvent) (p : Ptr) (revents : Nat) : List ReadyEvent :=
  let active := if revents &&& (POLLIN ||| POLLERR ||| POLLHUP) ≠ 0 then
    iv_fd_make_ready active p MASKIN else active
  let active := if revents &&& (POLLOUT ||| POLLERR ||| POLLHUP) ≠ 0 then
    iv_fd_make_ready active p MASKOUT else active
  let active := if revents &&& (POLLERR ||| POLLHUP) ≠ 0 then
    iv_fd_make_ready active p MASKERR else active
  active

/-- The loop `for (i = 0; i < ret; i++)` over the returned entries in `iv_dev_poll_poll`. -/
def poll_loop (st : iv_state) : List dvpoll_entry → List ReadyEvent → Outcome (List ReadyEvent)
  | [], active => .returned active
  | e :: rest, active =>
    match iv_fd_avl_find st e.fd with
    | none => .aborted (.unknown_fd e.fd)
    | some p => poll_loop st rest (poll_ready active p e.revents)

/-- Embedding of `iv_dev_poll_poll`; `wait` is what the `ioctl(DP_POLL)` call answers. -/
def iv_dev_poll_poll (st : iv_state) (active : List ReadyEvent) (msec : Int)
    (wait : dp_poll_result) : Outcome (iv_state × List ReadyEvent) :=
  (iv_dev_poll_flush_pending st).bind fun st1 =>
  let st2 : iv_state := { st1 with log := st1.log ++ [Call.dp_poll st1.poll_fd st1.numfds msec] }
  match wait with
  | .error errno =>
    if errno = EINTR then .returned (st2, active) else .aborted (.poll_error errno)
  | .events batch =>
    (poll_loop st2 batch active).bind fun active1 => .returned (st2, active1)

/-- Embedding of `iv_dev_poll_register_fd`. -/
def iv_dev_poll_register_fd (st : iv_state) (p : Ptr) : Outcome iv_state :=
  match iv_avl_tree_insert st p with
  | none => .aborted .register_error
  | some fds => .returned { st with fds := fds }

/-- Embedding of `iv_dev_poll_unregister_fd`. -/
def iv_dev_poll_unregister_fd (st : iv_state) (p : Ptr) : Outcome iv_state :=
  iv_dev_poll_flush_pending { st with fds := iv_avl_tree_delete st.fds p }

/-- Embedding of `iv_dev_poll_notify_fd`. -/
def iv_dev_poll_notify_fd (st : iv_state) (p : Ptr) : iv_state :=
  let st1 : iv_state := { st with notify := list_del_init st.notify p }
  if (st1.mem p).registered_bands ≠ (st1.mem p).wanted_bands then
    { st1 with notify := list_add_tail st1.notify p }
  else st1

/-! ## Descriptions used in the statements -/

/-- What the flush does to one record: `fd->registered_bands = fd->wanted_bands`. -/
def sync_fd (f : iv_fd_) : iv_fd_ := { f with registered_bands := f.wanted_bands }

/-- The entries that the flush owes the kernel for one record, in the words of the
specification: a removal entry if `registered_bands` has a bit that `wanted_bands` lacks,
then an entry with the kernel mask of `wanted_bands` if that is not empty. -/
def fd_entries (f : iv_fd_) : List pollfd :=
  (if and_not f.registered_bands f.wanted_bands ≠ 0 then [⟨f.fd, POLLREMOVE⟩] else []) ++
  (if f.wanted_bands ≠ 0 then [⟨f.fd, bits_to_poll_mask f.wanted_bands⟩] else [])

/-- The entries owed for a queue that is drained front to back, each record being
synchronised as soon as its entries are produced. -/
def queue_entries (mem : Ptr → iv_fd_) : List Ptr → List pollfd
  | [] => []
  | p :: rest => fd_entries (mem p) ++ queue_entries (Function.update mem p (sync_fd (mem p))) rest

/-- The record memory after a queue has been drained. -/
def sync_mem (mem : Ptr → iv_fd_) (q : List Ptr) : Ptr → iv_fd_ :=
  fun p => if p ∈ q then sync_fd (mem p) else mem p

/-- The batch entries in a log of calls, in the order they were handed to the kernel. -/
def written (log : List Call) : List pollfd :=
  log.flatMap fun c =>
    match c with
    | .xwrite _ pfd => pfd
    | .dp_poll _ _ _ => []

/-- The batch entries in a log of calls that name the descriptor number `k`. -/
def written_for (k : Int) (log : List Call) : List pollfd :=
  (written log).filter fun e => decide (e.fd = k)

/-- A kernel that takes every batch whole: each scripted answer accepts at least a full
batch buffer, and there is an answer for every `xwrite` call a flush of `n` queued records
can make. -/
def cooperative (writes : List write_result) (n : Nat) : Bool :=
  writes.all (fun w =>
    match w with
    | .accepts room => decide (UPLOAD_BATCH * sizeof_pollfd ≤ room)
    | .fails _ => false) && decide (n < writes.length)

/-- A sequence of interest changes, each announced as the library core does it: assign
`fd->wanted_bands`, then call `notify_fd`. -/
def announce (st : iv_state) : List (Ptr × Nat) → iv_state
  | [] => st
  | c :: cs => announce (iv_dev_poll_notify_fd (set_wanted_bands st c.1 c.2) c.1) cs

/-- The record `p` needs no further attention or is waiting for the flush: it is queued, or
the kernel already has its wanted interest. -/
def settled (st : iv_state) (p : Ptr) : Prop :=
  p ∈ st.notify ∨ (st.mem p).registered_bands = (st.mem p).wanted_bands

/-- The registry holds at most one record per descriptor number (the AVL tree is keyed by
`fd`, and `iv_avl_tree_insert` refuses a key that is present). -/
def registry_keys_unique (st : iv_state) : Prop :=
  (st.fds.map fun q => (st.mem q).fd).Nodup

instance (st : iv_state) : Decidable (registry_keys_unique st) :=
  inferInstanceAs (Decidable (st.fds.map fun q => (st.mem q).fd).Nodup)

/-- The queue-membership invariant of the data model: a registered record is in the
pending-change queue iff its `wanted_bands` differs from its `registered_bands`. -/
def queue_inv (st : iv_state) : Prop :=
  ∀ p ∈ st.fds, (p ∈ st.notify ↔ (st.mem p).wanted_bands ≠ (st.mem p).registered_bands)

instance (st : iv_state) : Decidable (queue_inv st) :=
  inferInstanceAs (Decidable (∀ p ∈ st.fds,
    (p ∈ st.notify ↔ (st.mem p).wanted_bands ≠ (st.mem p).registered_bands)))

/-- A sequence of calls of `iv_dev_poll_notify_fd`, each on any record, with or without a
change of `wanted_bands` before it. -/
def notify_all (st : iv_state) : List (Ptr × Option Nat) → iv_state
  | [] => st
  | (p, none) :: ops => notify_all (iv_dev_poll_notify_fd st p) ops
  | (p, some bands) :: ops =>
    notify_all (iv_dev_poll_notify_fd (set_wanted_bands st p bands) p) ops

/-- The records in the pending-change queue carry distinct descriptor numbers (a descriptor
is unique while registered); in particular no record is queued twice. -/
def queue_keys_unique (st : iv_state) : Prop :=
  (st.notify.map fun q => (st.mem q).fd).Nodup

instance (st : iv_state) : Decidable (queue_keys_unique st) :=
  inferInstanceAs (Decidable (st.notify.map fun q => (st.mem q).fd).Nodup)

/-- The raw bits `revents` have a bit of `mask`. -/
def has_bit (revents mask : Nat) : Bool := decide (revents &&& mask ≠ 0)

/-- The readiness bands of one returned entry in the words of the specification: `IN` if
the raw bits indicate input-ready, error or hang-up; `OUT` if they indicate output-ready, error
or hang-up; `ERR` if they indicate error or hang-up; in that order. -/
def ready_bands (revents : Nat) : List Nat :=
  (if has_bit revents POLLIN || has_bit revents POLLERR || has_bit revents POLLHUP
    then [MASKIN] else []) ++
  (if has_bit revents POLLOUT || has_bit revents POLLERR || has_bit revents POLLHUP
    then [MASKOUT] else []) ++
  (if has_bit revents POLLERR || has_bit revents POLLHUP then [MASKERR] else [])

/-- The readiness events owed for one returned entry: its bands, for the record that the
registry holds under the entry's descriptor number. -/
def fan_out (st : iv_state) (e : dvpoll_entry) : List ReadyEvent :=
  match iv_fd_avl_find st e.fd with
  | some p => (ready_bands e.revents).map fun band => (p, band)
  | none => []

/-- Records of a sample state: descriptor 5 with nothing registered, descriptor 7 registered
for `IN|OUT`, descriptor 9 registered for `IN`; any other address `p` holds descriptor `p`
with nothing registered. -/
def sample_mem : Ptr → iv_fd_ := fun p =>
  if p = 7 then ⟨7, MASKIN ||| MASKOUT, MASKIN ||| MASKOUT⟩
  else if p = 9 then ⟨9, MASKIN, MASKIN⟩
  else ⟨(p : Int), 0, 0⟩

/-- A sample state: descriptors 5, 7 and 9 registered, an empty queue, a kernel handle 100
whose next four `write(2)` calls take everything offered. -/
def sample_state : iv_state :=
  { numfds := 3, fds := [5, 7, 9], poll_fd := 100, notify := [], mem := sample_mem,
    writes := [.accepts 8192, .accepts 8192, .accepts 8192, .accepts 8192], log := [] }

/-- The sample state with the history of its kernel handle: one earlier batch registered
descriptor 7 for `IN|OUT` and descriptor 9 for `IN`. -/
def sample_history : iv_state :=
  { sample_state with log := [Call.xwrite 100 [⟨7, POLLIN ||| POLLOUT⟩, ⟨9, POLLIN⟩]] }

/-- The sample state with a history in which the kernel and the record of descriptor 5
disagree: one earlier batch registered descriptor 5 for `IN`, while the record holds
`registered_bands = 0`. -/
def stale_history : iv_state :=
  { sample_state with log := [Call.xwrite 100 [⟨5, POLLIN⟩]] }

/-- The sample state before descriptor 5 is registered. -/
def sample_unregistered : iv_state := { sample_state with fds := [7, 9] }

/-- The entries owed for a queue that is drained front to back, kept apart record by record
(`queue_entries` is their concatenation). -/
def queue_entry_lists (mem : Ptr → iv_fd_) : List Ptr → List (List pollfd)
  | [] => []
  | p :: rest =>
    fd_entries (mem p) :: queue_entry_lists (Function.update mem p (sync_fd (mem p))) rest

/-- The flush in the words of the specification, with a single buffer that is not bounded:
every queued record, front to back, appends its entries to the buffer and is synchronised;
the buffer is what one write at the end would carry. -/
def flush_unbounded : List Ptr → (Ptr → iv_fd_) → List pollfd → (Ptr → iv_fd_) × List pollfd
  | [], mem, buf => (mem, buf)
  | p :: rest, mem, buf =>
    flush_unbounded rest (Function.update mem p (sync_fd (mem p))) (buf ++ fd_entries (mem p))

/-- A state with a long queue: records 0 to 599, each registered for `IN|OUT` and wanting
`IN`, so that the flush owes 1200 entries, and a kernel that takes every batch whole. -/
def long_queue_state : iv_state :=
  { numfds := 600, fds := List.range 600, poll_fd := 100, notify := List.range 600,
    mem := fun p => ⟨(p : Int), MASKIN, MASKIN ||| MASKOUT⟩,
    writes := List.replicate 601 (.accepts 8192), log := [] }

/-- The bytes of the buffer `buf` that the kernel accepted over the `write(2)` calls `calls`,
in call order: a call at offset `off` that returned `ret` took the `ret` bytes from `off` on
(none when it failed). -/
def accepted {α : Type} (buf : List α) (calls : List write_call) : List α :=
  calls.flatMap fun c => (buf.drop c.off).take c.ret.toNat

/-- A `write(2)` answer that takes at least one byte. -/
def accepts_some (r : write_result) : Bool :=
  match r with
  | .accepts room => decide (0 < room)
  | .fails _ => false

/-- The registration the kernel holds for the descriptor number `k` after it has taken the
batch entries `es` on top of the registration `acc` (`none`: not registered): a removal entry
for `k` clears the registration, any other entry for `k` sets its interest, and the entries
of other descriptors leave it alone. -/
def kernel_replay (k : Int) (acc : Option Nat) (es : List pollfd) : Option Nat :=
  es.foldl (fun acc e =>
    if e.fd = k then (if e.events = POLLREMOVE then none else some e.events) else acc) acc

/-- The registration the kernel holds for the descriptor number `k` after all the batch
entries of a log of calls, starting from none. -/
def kernel_registration (k : Int) (log : List Call) : Option Nat :=
  kernel_replay k none (written log)

/-- The state `st'` is `st` after some batches were handed to the kernel: the registry,
`numfds` and the handle are the same, and the log grew by `xwrite` calls on the handle, each
with a non-empty buffer of at most `UPLOAD_BATCH` entries, that carry `es` in all. -/
def Uploaded (st st' : iv_state) (es : List pollfd) : Prop :=
  st'.numfds = st.numfds ∧ st'.fds = st.fds ∧ st'.poll_fd = st.poll_fd ∧
  ∃ calls, st'.log = st.log ++ calls ∧ written calls = es ∧
    ∀ c ∈ calls, ∃ b, c = Call.xwrite st.poll_fd b ∧ b ≠ [] ∧ b.length ≤ UPLOAD_BATCH

/-! ## Basic facts -/

@[simp] theorem Outcome.bind_returned {σ τ : Type} (s : σ) (f : σ → Outcome τ) :
    (Outcome.returned s).bind f = f s := rfl

@[simp] theorem Outcome.bind_aborted {σ τ : Type} (why : Fatal) (f : σ → Outcome τ) :
    (Outcome.aborted why : Outcome σ).bind f = .aborted why := rfl

@[simp] theorem Outcome.bind_blocked {σ τ : Type} (f : σ → Outcome τ) :
    (Outcome.blocked : Outcome σ).bind f = .blocked := rfl

@[simp] theorem Outcome.bind_overrun {σ τ : Type} (f : σ → Outcome τ) :
    (Outcome.overrun : Outcome σ).bind f = .overrun := rfl

theorem Outcome.bind_eq_returned {σ τ : Type} {o : Outcome σ} {f : σ → Outcome τ} {t : τ}
    (h : o.bind f = .returned t) : ∃ s, o = .returned s ∧ f s = .returned t := by
  cases o with
  | returned s => exact ⟨s, rfl, h⟩
  | aborted why => simp at h
  | blocked => simp at h
  | overrun => simp at h

theorem testBit_and_not (a b i : Nat) :
    (and_not a b).testBit i = (a.testBit i && !b.testBit i) := by
  unfold and_not
  rw [Nat.testBit_xor, Nat.testBit_and]
  cases a.testBit i <;> cases b.testBit i <;> rfl

/-- The helper `and_not` is the bitwise difference of the library. -/
theorem and_not_eq_ldiff (a b : Nat) : and_not a b = Nat.ldiff a b := by
  apply Nat.eq_of_testBit_eq
  intro i
  rw [testBit_and_not, Nat.testBit_ldiff]

theorem and_not_ne_zero_iff (a b : Nat) :
    and_not a b ≠ 0 ↔ ∃ i, a.testBit i = true ∧ b.testBit i = false := by
  constructor
  · intro h
    obtain ⟨i, hi⟩ := Nat.ne_zero_implies_bit_true h
    rw [testBit_and_not] at hi
    refine ⟨i, ?_, ?_⟩
    · cases ha : a.testBit i
      · simp [ha] at hi
      · rfl
    · cases hb : b.testBit i
      · rfl
      · simp [hb] at hi
  · rintro ⟨i, ha, hb⟩ h0
    have : (and_not a b).testBit i = true := by rw [testBit_and_not, ha, hb]; rfl
    rw [h0] at this
    simp at this

theorem and_not_zero (a : Nat) : and_not a 0 = a := by
  simp [and_not]

theorem and_not_self (a : Nat) : and_not a a = 0 := by
  simp [and_not]

theorem zero_and_not (b : Nat) : and_not 0 b = 0 := by
  simp [and_not]

theorem list_del_init_head (p : Ptr) (rest : List Ptr) : list_del_init (p :: rest) p = rest := by
  simp [list_del_init]

theorem list_empty_iff (l : List Ptr) : list_empty l = true ↔ l = [] := by
  simp [list_empty]

@[simp] theorem sync_fd_fd (f : iv_fd_) : (sync_fd f).fd = f.fd := rfl

@[simp] theorem sync_fd_wanted (f : iv_fd_) : (sync_fd f).wanted_bands = f.wanted_bands := rfl

@[simp] theorem sync_fd_registered (f : iv_fd_) :
    (sync_fd f).registered_bands = f.wanted_bands := rfl

@[simp] theorem sync_fd_idem (f : iv_fd_) : sync_fd (sync_fd f) = sync_fd f := rfl

theorem fd_entries_sync_fd (f : iv_fd_) :
    fd_entries (sync_fd f) =
      if f.wanted_bands ≠ 0 then [⟨f.fd, bits_to_poll_mask f.wanted_bands⟩] else [] := by
  simp [fd_entries, and_not_self]

theorem fd_entries_fd (f : iv_fd_) : ∀ e ∈ fd_entries f, e.fd = f.fd := by
  intro e he
  unfold fd_entries at he
  rw [List.mem_append] at he
  rcases he with he | he
  · split at he
    · rw [List.mem_singleton] at he; rw [he]
    · cases he
  · split at he
    · rw [List.mem_singleton] at he; rw [he]
    · cases he

theorem fd_entries_length_le (f : iv_fd_) : (fd_entries f).length ≤ 2 := by
  unfold fd_entries
  split <;> split <;> simp

/-! ## The flush, step by step -/

@[simp] theorem written_nil : written [] = [] := rfl

theorem written_append (l₁ l₂ : List Call) : written (l₁ ++ l₂) = written l₁ ++ written l₂ := by
  simp [written]

@[simp] theorem written_xwrite (fd : Int) (pfd : List pollfd) :
    written [Call.xwrite fd pfd] = pfd := by
  simp [written]

@[simp] theorem written_dp_poll (fd : Int) (n : Nat) (t : Int) :
    written [Call.dp_poll fd n t] = [] := by
  simp [written]

theorem Uploaded.refl (st : iv_state) : Uploaded st st [] :=
  ⟨rfl, rfl, rfl, [], by simp, rfl, by simp⟩

theorem Uploaded.trans {st st1 st2 : iv_state} {es1 es2 : List pollfd}
    (h1 : Uploaded st st1 es1) (h2 : Uploaded st1 st2 es2) : Uploaded st st2 (es1 ++ es2) := by
  obtain ⟨a1, b1, c1, calls1, hl1, hw1, hc1⟩ := h1
  obtain ⟨a2, b2, c2, calls2, hl2, hw2, hc2⟩ := h2
  refine ⟨a2.trans a1, b2.trans b1, c2.trans c1, calls1 ++ calls2, ?_, ?_, ?_⟩
  · rw [hl2, hl1, List.append_assoc]
  · rw [written_append, hw1, hw2]
  · intro c hc
    rcases List.mem_append.mp hc with hc | hc
    · exact hc1 c hc
    · rw [← c1]; exact hc2 c hc

theorem upload_returned {st st1 : iv_state} {pfd : List pollfd}
    (h : upload st pfd = .returned st1) :
    ∃ ws, st1 = { st with writes := ws, log := st.log ++ [Call.xwrite st.poll_fd pfd] } := by
  unfold upload at h
  obtain ⟨r, _, hr⟩ := Outcome.bind_eq_returned h
  exact ⟨r.2, (Outcome.returned.inj hr).symm⟩

theorem upload_uploaded {st st1 : iv_state} {pfd : List pollfd}
    (h : upload st pfd = .returned st1) (hne : pfd ≠ []) (hlen : pfd.length ≤ UPLOAD_BATCH) :
    st1.notify = st.notify ∧ st1.mem = st.mem ∧ Uploaded st st1 pfd := by
  obtain ⟨ws, rfl⟩ := upload_returned h
  refine ⟨rfl, rfl, rfl, rfl, rfl, [Call.xwrite st.poll_fd pfd], rfl, by simp, ?_⟩
  intro c hc
  rw [List.mem_singleton] at hc
  exact ⟨pfd, hc, hne, hlen⟩

theorem flush_room_returned {st : iv_state} {pfd : List pollfd} {r : iv_state × List pollfd}
    (h : flush_room st pfd = .returned r) (hlen : pfd.length ≤ UPLOAD_BATCH) :
    r.1.notify = st.notify ∧ r.1.mem = st.mem ∧ r.2.length ≤ UPLOAD_BATCH - 2 ∧
      ∃ es, Uploaded st r.1 es ∧ es ++ r.2 = pfd := by
  unfold flush_room at h
  split at h
  · rename_i hbig
    obtain ⟨st1, hup, hr⟩ := Outcome.bind_eq_returned h
    have hne : pfd ≠ [] := by
      intro h0
      rw [h0] at hbig
      simp at hbig
    obtain ⟨hn, hm, hu⟩ := upload_uploaded hup hne hlen
    cases Outcome.returned.inj hr
    exact ⟨hn, hm, by simp, pfd, hu, by simp⟩
  · rename_i hsmall
    cases Outcome.returned.inj h
    exact ⟨rfl, rfl, by simpa using hsmall, [], Uploaded.refl st, by simp⟩

theorem pfd_store_returned {pfd pfd1 : List pollfd} {e : pollfd}
    (h : pfd_store pfd e = .returned pfd1) : pfd1 = pfd ++ [e] ∧ pfd.length < UPLOAD_BATCH := by
  unfold pfd_store at h
  split at h
  · rename_i hlt
    exact ⟨(Outcome.returned.inj h).symm, hlt⟩
  · cases h

theorem flush_stores_returned {fd : iv_fd_} {pfd pfd3 : List pollfd}
    (h : flush_stores fd pfd = .returned pfd3) : pfd3 = pfd ++ fd_entries fd := by
  unfold flush_stores at h
  obtain ⟨pfd2, h1, h2⟩ := Outcome.bind_eq_returned h
  unfold fd_entries
  split at h1 <;> split at h2
  · obtain ⟨e1, _⟩ := pfd_store_returned h1
    obtain ⟨e2, _⟩ := pfd_store_returned h2
    rw [e2, e1]; simp [*]
  · obtain ⟨e1, _⟩ := pfd_store_returned h1
    cases Outcome.returned.inj h2
    rw [e1]; simp [*]
  · cases Outcome.returned.inj h1
    obtain ⟨e2, _⟩ := pfd_store_returned h2
    rw [e2]; simp [*]
  · cases Outcome.returned.inj h1
    cases Outcome.returned.inj h2
    simp [*]

theorem flush_stores_length {fd : iv_fd_} {pfd pfd3 : List pollfd}
    (h : flush_stores fd pfd = .returned pfd3) (hlen : pfd.length ≤ UPLOAD_BATCH) :
    pfd3.length ≤ UPLOAD_BATCH := by
  unfold flush_stores at h
  obtain ⟨pfd2, h1, h2⟩ := Outcome.bind_eq_returned h
  have h2len : pfd2.length ≤ UPLOAD_BATCH := by
    split at h1
    · obtain ⟨e1, hlt⟩ := pfd_store_returned h1
      rw [e1]; simp; omega
    · cases Outcome.returned.inj h1; exact hlen
  split at h2
  · obtain ⟨e2, hlt⟩ := pfd_store_returned h2
    rw [e2]; simp; omega
  · cases Outcome.returned.inj h2; exact h2len

theorem flush_step_returned {p : Ptr} {rest : List Ptr} {st : iv_state} {pfd : List pollfd}
    {r : iv_state × List pollfd}
    (h : flush_step p rest st pfd = .returned r) (hlen : pfd.length ≤ UPLOAD_BATCH) :
    r.1.notify = rest ∧ r.1.mem = Function.update st.mem p (sync_fd (st.mem p)) ∧
      r.2.length ≤ UPLOAD_BATCH ∧
      ∃ es, Uploaded st r.1 es ∧ es ++ r.2 = pfd ++ fd_entries (st.mem p) := by
  unfold flush_step at h
  obtain ⟨r1, hroom, h1⟩ := Outcome.bind_eq_returned h
  obtain ⟨pfd3, hst, h2⟩ := Outcome.bind_eq_returned h1
  obtain ⟨hn, hm, hr2, es, hu, hes⟩ := flush_room_returned hroom hlen
  have h3 := flush_stores_returned hst
  have h3len := flush_stores_length hst (by omega)
  cases Outcome.returned.inj h2
  have h3' : pfd3 = r1.2 ++ fd_entries (st.mem p) := by rw [h3, ← hm]
  refine ⟨rfl, ?_, h3len, es, ?_, ?_⟩
  · show Function.update r1.1.mem p _ = _
    rw [hm]; rfl
  · obtain ⟨a, b, c, d⟩ := hu
    exact ⟨a, b, c, d⟩
  · show es ++ pfd3 = _
    rw [h3', ← List.append_assoc, hes]

theorem sync_mem_nil (mem : Ptr → iv_fd_) : sync_mem mem [] = mem := by
  funext x
  simp [sync_mem]

theorem sync_mem_cons (mem : Ptr → iv_fd_) (p : Ptr) (rest : List Ptr) :
    sync_mem (Function.update mem p (sync_fd (mem p))) rest = sync_mem mem (p :: rest) := by
  funext x
  unfold sync_mem
  by_cases hx : x = p
  · subst hx
    simp
  · simp [hx, Function.update_noteq hx]

/-- What a flush that returns has done: the queue is drained, every record that was queued is
synchronised, and the batches handed to the kernel carry the entries owed for the queue after
the entries that were already in the buffer. -/
theorem flush_loop_returned : ∀ (q : List Ptr) (st : iv_state) (pfd : List pollfd)
    (st' : iv_state), flush_loop q st pfd = .returned st' → pfd.length ≤ UPLOAD_BATCH →
    st'.notify = (if q = [] then st.notify else []) ∧ st'.mem = sync_mem st.mem q ∧
      Uploaded st st' (pfd ++ queue_entries st.mem q) := by
  intro q
  induction q with
  | nil =>
    intro st pfd st' h hlen
    unfold flush_loop at h
    split at h
    · rename_i hne
      have hne' : pfd ≠ [] := by
        intro h0; rw [h0] at hne; simp at hne
      obtain ⟨hn, hm, hu⟩ := upload_uploaded h hne' hlen
      refine ⟨by simpa using hn, by rw [sync_mem_nil]; exact hm, ?_⟩
      simpa [queue_entries] using hu
    · rename_i h0
      cases Outcome.returned.inj h
      have hnil : pfd = [] := by
        cases pfd with
        | nil => rfl
        | cons a l => simp at h0
      subst hnil
      exact ⟨by simp, by rw [sync_mem_nil], by simpa [queue_entries] using Uploaded.refl st⟩
  | cons p rest ih =>
    intro st pfd st' h hlen
    unfold flush_loop at h
    obtain ⟨r, hstep, hrest⟩ := Outcome.bind_eq_returned h
    obtain ⟨hn, hm, hr2, es, hu, hes⟩ := flush_step_returned hstep hlen
    obtain ⟨hn', hm', hu'⟩ := ih r.1 r.2 st' hrest hr2
    refine ⟨?_, ?_, ?_⟩
    · rw [hn', hn]; simp
    · rw [hm', hm, sync_mem_cons]
    · have := Uploaded.trans hu hu'
      rw [← List.append_assoc, hes, hm, List.append_assoc] at this
      exact this

theorem cooperative_iff (ws : List write_result) (n : Nat) :
    cooperative ws n = true ↔
      (∀ w ∈ ws, ∃ room, w = .accepts room ∧ UPLOAD_BATCH * sizeof_pollfd ≤ room) ∧
        n < ws.length := by
  unfold cooperative
  rw [Bool.and_eq_true, List.all_eq_true, decide_eq_true_iff]
  constructor
  · rintro ⟨h1, h2⟩
    refine ⟨fun w hw => ?_, h2⟩
    have := h1 w hw
    cases w with
    | accepts room => exact ⟨room, rfl, by simpa using this⟩
    | fails e => simp at this
  · rintro ⟨h1, h2⟩
    refine ⟨fun w hw => ?_, h2⟩
    obtain ⟨room, rfl, hroom⟩ := h1 w hw
    simpa using hroom

theorem xwrite_zero (errno off : Nat) (calls : List write_call) (ws : List write_result) :
    xwrite errno off 0 calls ws = .returned (calls, ws) := by
  cases ws <;> simp [xwrite]

theorem to_int_of_le {r : Nat} (h : r ≤ INT_MAX) : to_int r = (r : Int) := by
  have hU : INT_MAX = 2147483647 := rfl
  have hmod : r % 2 ^ 32 = r := Nat.mod_eq_of_lt (by omega)
  unfold to_int
  rw [hmod, if_pos (by omega)]

/-- A `write` that takes `n` of at most `INT_MAX` bytes offered: `ret` is `n`, and `xwrite`
advances by `n`. -/
theorem xwrite_short (errno off count : Nat) (calls : List write_call)
    (rest : List write_result) (n : Nat) (hpos : 0 < count) (hn : n ≤ count)
    (hmax : count ≤ INT_MAX) :
    xwrite errno off count calls (.accepts n :: rest) =
      xwrite errno (off + n) (count - n) (calls ++ [⟨off, count, (n : Nat)⟩]) rest := by
  have hmin : min n count = n := Nat.min_eq_left hn
  have hint : to_int n = (n : Int) := to_int_of_le (by omega)
  rw [xwrite, if_neg (by omega)]
  simp only [hmin, hint]
  rw [if_neg (by omega), Int.toNat_ofNat]

theorem xwrite_accepts (errno off count room : Nat) (calls : List write_call)
    (rest : List write_result) (hpos : 0 < count) (hroom : count ≤ room)
    (hmax : count ≤ INT_MAX) :
    xwrite errno off count calls (.accepts room :: rest) =
      .returned (calls ++ [⟨off, count, (count : Nat)⟩], rest) := by
  have hmin : min room count = count := Nat.min_eq_right hroom
  have hint : to_int count = (count : Int) := to_int_of_le hmax
  rw [xwrite, if_neg (by omega)]
  simp only [hmin, hint]
  rw [if_neg (by omega), Int.toNat_ofNat, Nat.sub_self]
  exact xwrite_zero _ _ _ _

theorem upload_returns {st : iv_state} {pfd : List pollfd} {n : Nat}
    (hco : cooperative st.writes n = true) (hne : pfd ≠ []) (hlen : pfd.length ≤ UPLOAD_BATCH) :
    ∃ st1, upload st pfd = .returned st1 ∧ st1.writes = st.writes.tail := by
  obtain ⟨hall, hn⟩ := (cooperative_iff _ _).mp hco
  cases hw : st.writes with
  | nil => rw [hw] at hn; simp at hn
  | cons w ws =>
    obtain ⟨room, rfl, hroom⟩ := hall w (by rw [hw]; simp)
    have hpos : 0 < pfd.length * sizeof_pollfd := by
      have : 0 < pfd.length := List.length_pos.mpr hne
      simp [sizeof_pollfd]; omega
    have hle : pfd.length * sizeof_pollfd ≤ room := by
      have : pfd.length * sizeof_pollfd ≤ UPLOAD_BATCH * sizeof_pollfd :=
        Nat.mul_le_mul_right _ hlen
      omega
    have hmax : pfd.length * sizeof_pollfd ≤ INT_MAX := by
      have h1 : pfd.length * sizeof_pollfd ≤ UPLOAD_BATCH * sizeof_pollfd :=
        Nat.mul_le_mul_right _ hlen
      have h2 : UPLOAD_BATCH * sizeof_pollfd ≤ INT_MAX := by decide
      omega
    unfold upload
    rw [hw, xwrite_accepts _ _ _ _ _ _ hpos hle hmax]
    exact ⟨_, rfl, rfl⟩

theorem cooperative_tail {ws : List write_result} {n : Nat}
    (hco : cooperative ws (n + 1) = true) : cooperative ws.tail n = true := by
  obtain ⟨hall, hn⟩ := (cooperative_iff _ _).mp hco
  refine (cooperative_iff _ _).mpr ⟨fun w hw => hall w (List.mem_of_mem_tail hw), ?_⟩
  rw [List.length_tail]; omega

theorem cooperative_mono {ws : List write_result} {n : Nat}
    (hco : cooperative ws (n + 1) = true) : cooperative ws n = true := by
  obtain ⟨hall, hn⟩ := (cooperative_iff _ _).mp hco
  exact (cooperative_iff _ _).mpr ⟨hall, by omega⟩

theorem flush_room_returns {st : iv_state} {pfd : List pollfd} {n : Nat}
    (hco : cooperative st.writes (n + 1) = true) (hlen : pfd.length ≤ UPLOAD_BATCH) :
    ∃ r, flush_room st pfd = .returned r ∧ cooperative r.1.writes n = true := by
  unfold flush_room
  split
  · rename_i hbig
    have hne : pfd ≠ [] := by
      intro h0; rw [h0] at hbig; simp at hbig
    obtain ⟨st1, h1, hw⟩ := upload_returns hco hne hlen
    rw [h1]
    refine ⟨_, rfl, ?_⟩
    show cooperative st1.writes n = true
    rw [hw]; exact cooperative_tail hco
  · exact ⟨_, rfl, cooperative_mono hco⟩

theorem pfd_store_returns {pfd : List pollfd} (e : pollfd) (hlen : pfd.length < UPLOAD_BATCH) :
    pfd_store pfd e = .returned (pfd ++ [e]) := by
  unfold pfd_store
  rw [if_pos hlen]

theorem flush_stores_returns (fd : iv_fd_) {pfd : List pollfd}
    (hlen : pfd.length ≤ UPLOAD_BATCH - 2) : ∃ pfd3, flush_stores fd pfd = .returned pfd3 := by
  have hU : UPLOAD_BATCH = 1024 := rfl
  unfold flush_stores
  by_cases h1 : and_not fd.registered_bands fd.wanted_bands ≠ 0 <;>
    by_cases h2 : fd.wanted_bands ≠ 0
  · rw [if_pos h1, pfd_store_returns _ (by omega), Outcome.bind_returned, if_pos h2,
      pfd_store_returns _ (by simp; omega)]
    exact ⟨_, rfl⟩
  · rw [if_pos h1, pfd_store_returns _ (by omega), Outcome.bind_returned, if_neg h2]
    exact ⟨_, rfl⟩
  · rw [if_neg h1, Outcome.bind_returned, if_pos h2, pfd_store_returns _ (by omega)]
    exact ⟨_, rfl⟩
  · rw [if_neg h1, Outcome.bind_returned, if_neg h2]
    exact ⟨_, rfl⟩

theorem flush_step_returns (p : Ptr) (rest : List Ptr) {st : iv_state} {pfd : List pollfd}
    {n : Nat} (hco : cooperative st.writes (n + 1) = true) (hlen : pfd.length ≤ UPLOAD_BATCH) :
    ∃ r, flush_step p rest st pfd = .returned r ∧ cooperative r.1.writes n = true := by
  obtain ⟨r1, h1, hco1⟩ := flush_room_returns hco hlen
  obtain ⟨_, _, hr2, _⟩ := flush_room_returned h1 hlen
  obtain ⟨pfd3, h3⟩ := flush_stores_returns (r1.1.mem p) hr2
  unfold flush_step
  rw [h1]
  simp only [Outcome.bind_returned]
  rw [h3]
  exact ⟨_, rfl, hco1⟩

/-- With a cooperative kernel the flush returns, whatever the length of the queue. -/
theorem flush_loop_returns : ∀ (q : List Ptr) (st : iv_state) (pfd : List pollfd),
    cooperative st.writes q.length = true → pfd.length ≤ UPLOAD_BATCH →
    ∃ st', flush_loop q st pfd = .returned st' := by
  intro q
  induction q with
  | nil =>
    intro st pfd hco hlen
    unfold flush_loop
    split
    · rename_i hne
      have hne' : pfd ≠ [] := by
        intro h0; rw [h0] at hne; simp at hne
      obtain ⟨st1, h1, _⟩ := upload_returns hco hne' hlen
      exact ⟨st1, h1⟩
    · exact ⟨st, rfl⟩
  | cons p rest ih =>
    intro st pfd hco hlen
    obtain ⟨r, hstep, hco1⟩ := flush_step_returns p rest hco hlen
    obtain ⟨_, _, hr2, _⟩ := flush_step_returned hstep hlen
    obtain ⟨st', h'⟩ := ih r.1 r.2 hco1 hr2
    unfold flush_loop
    rw [hstep]
    exact ⟨st', h'⟩

/-! ## Notify -/

@[simp] theorem notify_fd_mem (st : iv_state) (p : Ptr) :
    (iv_dev_poll_notify_fd st p).mem = st.mem := by
  unfold iv_dev_poll_notify_fd
  simp only
  split <;> rfl

@[simp] theorem notify_fd_fds (st : iv_state) (p : Ptr) :
    (iv_dev_poll_notify_fd st p).fds = st.fds := by
  unfold iv_dev_poll_notify_fd
  simp only
  split <;> rfl

@[simp] theorem notify_fd_writes (st : iv_state) (p : Ptr) :
    (iv_dev_poll_notify_fd st p).writes = st.writes := by
  unfold iv_dev_poll_notify_fd
  simp only
  split <;> rfl

@[simp] theorem notify_fd_log (st : iv_state) (p : Ptr) :
    (iv_dev_poll_notify_fd st p).log = st.log := by
  unfold iv_dev_poll_notify_fd
  simp only
  split <;> rfl

@[simp] theorem notify_fd_poll_fd (st : iv_state) (p : Ptr) :
    (iv_dev_poll_notify_fd st p).poll_fd = st.poll_fd := by
  unfold iv_dev_poll_notify_fd
  simp only
  split <;> rfl

@[simp] theorem notify_fd_numfds (st : iv_state) (p : Ptr) :
    (iv_dev_poll_notify_fd st p).numfds = st.numfds := by
  unfold iv_dev_poll_notify_fd
  simp only
  split <;> rfl

theorem notify_fd_notify (st : iv_state) (p : Ptr) :
    (iv_dev_poll_notify_fd st p).notify =
      if (st.mem p).registered_bands ≠ (st.mem p).wanted_bands then st.notify.erase p ++ [p]
      else st.notify.erase p := by
  unfold iv_dev_poll_notify_fd list_del_init list_add_tail
  simp only
  split <;> rfl

theorem notify_fd_settled (st : iv_state) (p : Ptr) : settled (iv_dev_poll_notify_fd st p) p := by
  unfold settled
  rw [notify_fd_notify, notify_fd_mem]
  by_cases h : (st.mem p).registered_bands = (st.mem p).wanted_bands
  · exact Or.inr h
  · left
    rw [if_pos h]
    simp

theorem mem_notify_fd_of_ne {st : iv_state} {p q : Ptr} (hne : q ≠ p) :
    q ∈ (iv_dev_poll_notify_fd st p).notify ↔ q ∈ st.notify := by
  rw [notify_fd_notify]
  split
  · rw [List.mem_append, List.mem_singleton, List.mem_erase_of_ne hne]
    constructor
    · rintro (h | h)
      · exact h
      · exact absurd h hne
    · exact Or.inl
  · exact List.mem_erase_of_ne hne

theorem set_wanted_bands_mem_of_ne {st : iv_state} {p q : Ptr} (bands : Nat) (hne : q ≠ p) :
    (set_wanted_bands st p bands).mem q = st.mem q := by
  unfold set_wanted_bands
  exact Function.update_noteq hne _ _

theorem set_wanted_bands_mem_self (st : iv_state) (p : Ptr) (bands : Nat) :
    (set_wanted_bands st p bands).mem p = { st.mem p with wanted_bands := bands } := by
  unfold set_wanted_bands
  exact Function.update_same _ _ _

theorem settled_step_of_ne {st : iv_state} {p q : Ptr} (bands : Nat) (hne : q ≠ p)
    (h : settled st q) :
    settled (iv_dev_poll_notify_fd (set_wanted_bands st p bands) p) q := by
  unfold settled at h ⊢
  rw [mem_notify_fd_of_ne hne, notify_fd_mem, set_wanted_bands_mem_of_ne bands hne]
  exact h

theorem settled_step (st : iv_state) (p q : Ptr) (bands : Nat) (h : settled st q ∨ q = p) :
    settled (iv_dev_poll_notify_fd (set_wanted_bands st p bands) p) q := by
  by_cases hq : q = p
  · subst hq
    exact notify_fd_settled _ _
  · exact settled_step_of_ne bands hq (h.resolve_right hq)

theorem announce_nil (st : iv_state) : announce st [] = st := rfl

theorem announce_cons (st : iv_state) (c : Ptr × Nat) (cs : List (Ptr × Nat)) :
    announce st (c :: cs) =
      announce (iv_dev_poll_notify_fd (set_wanted_bands st c.1 c.2) c.1) cs := rfl

theorem settled_announce : ∀ (cs : List (Ptr × Nat)) (st : iv_state) (q : Ptr),
    settled st q ∨ q ∈ cs.map Prod.fst → settled (announce st cs) q := by
  intro cs
  induction cs with
  | nil =>
    intro st q h
    rcases h with h | h
    · exact h
    · simp at h
  | cons c cs ih =>
    intro st q h
    rw [announce_cons]
    apply ih
    rcases h with h | h
    · exact Or.inl (settled_step st c.1 q c.2 (Or.inl h))
    · rw [List.map_cons, List.mem_cons] at h
      rcases h with h | h
      · exact Or.inl (settled_step st c.1 q c.2 (Or.inr h))
      · exact Or.inr h

theorem announce_append : ∀ (a b : List (Ptr × Nat)) (st : iv_state),
    announce st (a ++ b) = announce (announce st a) b := by
  intro a
  induction a with
  | nil => intro b st; rfl
  | cons c cs ih =>
    intro b st
    rw [List.cons_append, announce_cons, announce_cons]
    exact ih b _

theorem announce_mem_of_not_mem : ∀ (cs : List (Ptr × Nat)) (st : iv_state) (p : Ptr),
    p ∉ cs.map Prod.fst → (announce st cs).mem p = st.mem p := by
  intro cs
  induction cs with
  | nil => intro st p _; rfl
  | cons c cs ih =>
    intro st p hp
    rw [List.map_cons, List.mem_cons, not_or] at hp
    rw [announce_cons, ih _ p hp.2, notify_fd_mem, set_wanted_bands_mem_of_ne _ hp.1]

theorem announce_writes : ∀ (cs : List (Ptr × Nat)) (st : iv_state),
    (announce st cs).writes = st.writes := by
  intro cs
  induction cs with
  | nil => intro st; rfl
  | cons c cs ih =>
    intro st
    rw [announce_cons, ih, notify_fd_writes]
    rfl

/-- The flush as a whole: what holds when it returns. -/
theorem flush_pending_returned {st st' : iv_state}
    (h : iv_dev_poll_flush_pending st = .returned st') :
    st'.notify = [] ∧ st'.mem = sync_mem st.mem st.notify ∧
      Uploaded st st' (queue_entries st.mem st.notify) := by
  unfold iv_dev_poll_flush_pending at h
  obtain ⟨hn, hm, hu⟩ := flush_loop_returned _ _ _ _ h (by simp)
  refine ⟨?_, hm, by simpa using hu⟩
  rw [hn]
  split
  · assumption
  · rfl

/-- The flush returns when the kernel is cooperative. -/
theorem flush_pending_returns {st : iv_state}
    (hco : cooperative st.writes st.notify.length = true) :
    ∃ st', iv_dev_poll_flush_pending st = .returned st' :=
  flush_loop_returns _ _ _ hco (by simp)

theorem sync_mem_wanted (mem : Ptr → iv_fd_) (q : List Ptr) (p : Ptr) :
    (sync_mem mem q p).wanted_bands = (mem p).wanted_bands := by
  unfold sync_mem
  split <;> rfl

theorem sync_mem_fd (mem : Ptr → iv_fd_) (q : List Ptr) (p : Ptr) :
    (sync_mem mem q p).fd = (mem p).fd := by
  unfold sync_mem
  split <;> rfl

theorem sync_mem_of_mem {mem : Ptr → iv_fd_} {q : List Ptr} {p : Ptr} (h : p ∈ q) :
    sync_mem mem q p = sync_fd (mem p) := by
  unfold sync_mem
  rw [if_pos h]

theorem sync_mem_of_not_mem {mem : Ptr → iv_fd_} {q : List Ptr} {p : Ptr} (h : p ∉ q) :
    sync_mem mem q p = mem p := by
  unfold sync_mem
  rw [if_neg h]

theorem sync_mem_settled {st : iv_state} {p : Ptr} (h : settled st p) :
    (sync_mem st.mem st.notify p).registered_bands =
      (sync_mem st.mem st.notify p).wanted_bands := by
  by_cases hp : p ∈ st.notify
  · rw [sync_mem_of_mem hp]; rfl
  · rw [sync_mem_of_not_mem hp]
    exact h.resolve_left hp

theorem notify_fd_nodup {st : iv_state} (p : Ptr) (hnd : st.notify.Nodup) :
    (iv_dev_poll_notify_fd st p).notify.Nodup := by
  rw [notify_fd_notify]
  split
  · rw [List.nodup_append]
    refine ⟨hnd.erase p, List.nodup_singleton p, ?_⟩
    intro x hx hx'
    rw [List.mem_singleton] at hx'
    subst hx'
    exact hnd.not_mem_erase hx
  · exact hnd.erase p

theorem mem_notify_fd_self {st : iv_state} (p : Ptr) (hnd : st.notify.Nodup) :
    p ∈ (iv_dev_poll_notify_fd st p).notify ↔
      (st.mem p).wanted_bands ≠ (st.mem p).registered_bands := by
  rw [notify_fd_notify]
  by_cases h : (st.mem p).registered_bands = (st.mem p).wanted_bands
  · rw [if_neg (not_not.mpr h)]
    exact ⟨fun hp => absurd hp hnd.not_mem_erase, fun hne => absurd h.symm hne⟩
  · rw [if_pos h]
    exact ⟨fun _ => fun e => h e.symm, fun _ => by simp⟩

theorem notify_fd_eq (st : iv_state) (p : Ptr) :
    iv_dev_poll_notify_fd st p = { st with notify := (iv_dev_poll_notify_fd st p).notify } := by
  unfold iv_dev_poll_notify_fd
  simp only
  split <;> rfl

/-- A second call of `iv_dev_poll_notify_fd` on the same record changes nothing. -/
theorem notify_fd_twice {st : iv_state} (p : Ptr) (hnd : st.notify.Nodup) :
    iv_dev_poll_notify_fd (iv_dev_poll_notify_fd st p) p = iv_dev_poll_notify_fd st p := by
  have hq : (iv_dev_poll_notify_fd (iv_dev_poll_notify_fd st p) p).notify =
      (iv_dev_poll_notify_fd st p).notify := by
    rw [notify_fd_notify (iv_dev_poll_notify_fd st p), notify_fd_mem, notify_fd_notify st]
    have hnot : p ∉ st.notify.erase p := hnd.not_mem_erase
    split
    · rw [List.erase_append_right _ hnot]
      simp
    · rw [List.erase_of_not_mem hnot]
  have h := notify_fd_eq (iv_dev_poll_notify_fd st p) p
  rw [hq] at h
  exact h

theorem set_wanted_bands_notify (st : iv_state) (p : Ptr) (bands : Nat) :
    (set_wanted_bands st p bands).notify = st.notify := rfl

theorem set_wanted_bands_fds (st : iv_state) (p : Ptr) (bands : Nat) :
    (set_wanted_bands st p bands).fds = st.fds := rfl

theorem set_wanted_bands_of_eq {st : iv_state} {p : Ptr} {bands : Nat}
    (h : (st.mem p).wanted_bands = bands) : set_wanted_bands st p bands = st := by
  have hrec : ({ st.mem p with wanted_bands := bands } : iv_fd_) = st.mem p := by
    rw [← h]
  unfold set_wanted_bands
  rw [hrec, Function.update_eq_self]

/-- Announcing the same value of `wanted_bands` a second time changes nothing. -/
theorem announce_twice {st : iv_state} (p : Ptr) (bands : Nat) (hnd : st.notify.Nodup) :
    iv_dev_poll_notify_fd
        (set_wanted_bands (iv_dev_poll_notify_fd (set_wanted_bands st p bands) p) p bands) p =
      iv_dev_poll_notify_fd (set_wanted_bands st p bands) p := by
  have hnd' : (set_wanted_bands st p bands).notify.Nodup := hnd
  have hcomm : set_wanted_bands (iv_dev_poll_notify_fd (set_wanted_bands st p bands) p) p bands =
      iv_dev_poll_notify_fd (set_wanted_bands st p bands) p := by
    apply set_wanted_bands_of_eq
    rw [notify_fd_mem, set_wanted_bands_mem_self]
  rw [hcomm]
  exact notify_fd_twice p hnd'

theorem notify_all_nodup : ∀ (ops : List (Ptr × Option Nat)) (st : iv_state),
    st.notify.Nodup → (notify_all st ops).notify.Nodup := by
  intro ops
  induction ops with
  | nil => intro st h; exact h
  | cons op ops ih =>
    intro st h
    obtain ⟨p, o⟩ := op
    cases o with
    | none => exact ih _ (notify_fd_nodup p h)
    | some bands => exact ih _ (notify_fd_nodup p h)

/-! ## The entries written for one descriptor -/

theorem queue_entries_congr : ∀ (q : List Ptr) (mem mem' : Ptr → iv_fd_),
    (∀ x ∈ q, mem' x = mem x) → queue_entries mem' q = queue_entries mem q := by
  intro q
  induction q with
  | nil => intro mem mem' _; rfl
  | cons p rest ih =>
    intro mem mem' h
    unfold queue_entries
    rw [h p (List.mem_cons_self _ _)]
    congr 1
    apply ih
    intro x hx
    by_cases hxp : x = p
    · subst hxp
      simp
    · rw [Function.update_noteq hxp, Function.update_noteq hxp]
      exact h x (List.mem_cons_of_mem _ hx)

/-- For a queue without duplicates the entries owed are those of its records as they are
when the flush starts, in queue order. -/
theorem queue_entries_nodup : ∀ (q : List Ptr) (mem : Ptr → iv_fd_), q.Nodup →
    queue_entries mem q = q.flatMap fun p => fd_entries (mem p) := by
  intro q
  induction q with
  | nil => intro mem _; rfl
  | cons p rest ih =>
    intro mem hnd
    rw [List.nodup_cons] at hnd
    unfold queue_entries
    rw [List.flatMap_cons, ← ih mem hnd.2]
    congr 1
    apply queue_entries_congr
    intro x hx
    have hxp : x ≠ p := fun e => hnd.1 (e ▸ hx)
    exact Function.update_noteq hxp _ _

theorem filter_fd_entries_self (f : iv_fd_) :
    (fd_entries f).filter (fun e => decide (e.fd = f.fd)) = fd_entries f := by
  rw [List.filter_eq_self]
  intro e he
  simpa using fd_entries_fd f e he

theorem filter_fd_entries_other (f : iv_fd_) {k : Int} (h : f.fd ≠ k) :
    (fd_entries f).filter (fun e => decide (e.fd = k)) = [] := by
  rw [List.filter_eq_nil_iff]
  intro e he
  rw [decide_eq_true_eq, fd_entries_fd f e he]
  exact h

theorem filter_queue_entries (mem : Ptr → iv_fd_) (p : Ptr) : ∀ (q : List Ptr), q.Nodup →
    (∀ x ∈ q, x ≠ p → (mem x).fd ≠ (mem p).fd) →
    (q.flatMap fun x => fd_entries (mem x)).filter (fun e => decide (e.fd = (mem p).fd)) =
      if p ∈ q then fd_entries (mem p) else [] := by
  intro q
  induction q with
  | nil => intro _ _; rfl
  | cons x rest ih =>
    intro hnd hkeys
    rw [List.nodup_cons] at hnd
    have ih' := ih hnd.2 fun y hy => hkeys y (List.mem_cons_of_mem _ hy)
    rw [List.flatMap_cons, List.filter_append, ih']
    by_cases hxp : x = p
    · subst hxp
      rw [filter_fd_entries_self, if_neg hnd.1, if_pos (List.mem_cons_self _ _),
        List.append_nil]
    · rw [filter_fd_entries_other _ (hkeys x (List.mem_cons_self _ _) hxp), List.nil_append]
      have : p ∈ x :: rest ↔ p ∈ rest := by
        rw [List.mem_cons]
        exact ⟨fun h => h.resolve_left (fun e => hxp e.symm), Or.inr⟩
      simp only [this]

theorem queue_keys_unique_nodup {st : iv_state} (h : queue_keys_unique st) : st.notify.Nodup :=
  List.Nodup.of_map _ h

theorem queue_keys_unique_ne {st : iv_state} (h : queue_keys_unique st) {p : Ptr}
    (hp : p ∈ st.notify) : ∀ x ∈ st.notify, x ≠ p → (st.mem x).fd ≠ (st.mem p).fd :=
  fun _ hx hxp e => hxp (List.inj_on_of_nodup_map h hx hp e)

theorem written_for_append (k : Int) (l₁ l₂ : List Call) :
    written_for k (l₁ ++ l₂) = written_for k l₁ ++ written_for k l₂ := by
  unfold written_for
  rw [written_append, List.filter_append]

/-- The entries that a flush writes for the descriptor number of a record `p` are the
entries owed for `p` if it is queued, and none otherwise, when no record is queued twice and
no other queued record carries the descriptor number of `p`. -/
theorem flush_written_for {st st' : iv_state} {p : Ptr}
    (h : iv_dev_poll_flush_pending st = .returned st') (hnd : st.notify.Nodup)
    (hne : ∀ x ∈ st.notify, x ≠ p → (st.mem x).fd ≠ (st.mem p).fd) :
    written_for (st.mem p).fd st'.log =
      written_for (st.mem p).fd st.log ++
        if p ∈ st.notify then fd_entries (st.mem p) else [] := by
  obtain ⟨_, _, _, _, _, calls, hlog, hw, _⟩ := flush_pending_returned h
  rw [hlog, written_for_append]
  congr 1
  unfold written_for
  rw [hw, queue_entries_nodup _ _ hnd, filter_queue_entries st.mem p st.notify hnd hne]

theorem flush_written_for_queued {st st' : iv_state} {p : Ptr}
    (h : iv_dev_poll_flush_pending st = .returned st') (hkeys : queue_keys_unique st)
    (hp : p ∈ st.notify) :
    written_for (st.mem p).fd st'.log =
      written_for (st.mem p).fd st.log ++ fd_entries (st.mem p) := by
  rw [flush_written_for h (queue_keys_unique_nodup hkeys) (queue_keys_unique_ne hkeys hp),
    if_pos hp]

theorem fd_entries_narrowed {f : iv_fd_}
    (hbit : ∃ i, f.registered_bands.testBit i = true ∧ f.wanted_bands.testBit i = false)
    (hw : f.wanted_bands ≠ 0) :
    fd_entries f = [⟨f.fd, POLLREMOVE⟩, ⟨f.fd, bits_to_poll_mask f.wanted_bands⟩] := by
  unfold fd_entries
  rw [if_pos ((and_not_ne_zero_iff _ _).mpr hbit), if_pos hw]
  rfl

theorem fd_entries_dropped {f : iv_fd_} (hr : f.registered_bands ≠ 0)
    (hw : f.wanted_bands = 0) : fd_entries f = [⟨f.fd, POLLREMOVE⟩] := by
  unfold fd_entries
  rw [hw, and_not_zero, if_pos hr, if_neg (by simp)]
  rfl

theorem fd_entries_sublist (f : iv_fd_) :
    List.Sublist (fd_entries f)
      [⟨f.fd, POLLREMOVE⟩, ⟨f.fd, bits_to_poll_mask f.wanted_bands⟩] := by
  unfold fd_entries
  split <;> split <;> simp

/-! ## Registry and readiness -/

theorem iv_fd_avl_find_congr {st st' : iv_state} (hfds : st'.fds = st.fds)
    (hfd : ∀ p, (st'.mem p).fd = (st.mem p).fd) (key : Int) :
    iv_fd_avl_find st' key = iv_fd_avl_find st key := by
  unfold iv_fd_avl_find
  rw [hfds]
  congr 1
  funext p
  rw [hfd]

theorem iv_fd_avl_find_eq_none {st : iv_state} {key : Int} :
    iv_fd_avl_find st key = none ↔ ∀ q ∈ st.fds, (st.mem q).fd ≠ key := by
  unfold iv_fd_avl_find
  rw [List.find?_eq_none]
  simp

theorem iv_fd_avl_find_some_mem {st : iv_state} {key : Int} {p : Ptr}
    (h : iv_fd_avl_find st key = some p) : p ∈ st.fds ∧ (st.mem p).fd = key := by
  unfold iv_fd_avl_find at h
  refine ⟨List.mem_of_find?_eq_some h, ?_⟩
  have := List.find?_some h
  simpa using this

theorem iv_fd_avl_find_of_mem {st : iv_state} {p : Ptr} (hkeys : registry_keys_unique st)
    (hp : p ∈ st.fds) : iv_fd_avl_find st (st.mem p).fd = some p := by
  cases hf : iv_fd_avl_find st (st.mem p).fd with
  | none => exact absurd rfl (iv_fd_avl_find_eq_none.mp hf p hp)
  | some q =>
    obtain ⟨hq, hqk⟩ := iv_fd_avl_find_some_mem hf
    rw [List.inj_on_of_nodup_map hkeys hq hp hqk]

theorem flush_pending_find {st st' : iv_state}
    (h : iv_dev_poll_flush_pending st = .returned st') (key : Int) :
    iv_fd_avl_find st' key = iv_fd_avl_find st key := by
  obtain ⟨_, hm, _, hfds, _⟩ := flush_pending_returned h
  apply iv_fd_avl_find_congr hfds
  intro p
  rw [hm, sync_mem_fd]

theorem lor_eq_zero_iff (a b : Nat) : a ||| b = 0 ↔ a = 0 ∧ b = 0 := by
  constructor
  · intro h
    have hbit : ∀ i, a.testBit i = false ∧ b.testBit i = false := by
      intro i
      have : (a ||| b).testBit i = false := by rw [h]; simp
      rw [Nat.testBit_or] at this
      cases ha : a.testBit i <;> cases hb : b.testBit i <;> simp [ha, hb] at this ⊢
    exact ⟨Nat.zero_of_testBit_eq_false fun i => (hbit i).1,
      Nat.zero_of_testBit_eq_false fun i => (hbit i).2⟩
  · rintro ⟨rfl, rfl⟩
    rfl

theorem land_lor_ne_zero_iff (r a b : Nat) :
    r &&& (a ||| b) ≠ 0 ↔ r &&& a ≠ 0 ∨ r &&& b ≠ 0 := by
  rw [Nat.and_or_distrib_left, Ne, lor_eq_zero_iff]
  tauto

theorem land_lor3_ne_zero_iff (r a b c : Nat) :
    r &&& (a ||| b ||| c) ≠ 0 ↔ r &&& a ≠ 0 ∨ r &&& b ≠ 0 ∨ r &&& c ≠ 0 := by
  rw [land_lor_ne_zero_iff, land_lor_ne_zero_iff]
  tauto

/-- The three tests of the loop body of `iv_dev_poll_poll` emit the bands of the
specification, in its order. -/
theorem poll_ready_eq_ready_bands (active : List ReadyEvent) (p : Ptr) (revents : Nat) :
    poll_ready active p revents = active ++ (ready_bands revents).map fun band => (p, band) := by
  simp only [poll_ready, land_lor3_ne_zero_iff, land_lor_ne_zero_iff, ready_bands, has_bit,
    iv_fd_make_ready, Bool.or_eq_true, decide_eq_true_eq]
  split <;> split <;> split <;> simp

theorem poll_loop_known (st : iv_state) : ∀ (batch : List dvpoll_entry)
    (active : List ReadyEvent), (∀ e ∈ batch, (iv_fd_avl_find st e.fd).isSome = true) →
    poll_loop st batch active = .returned (active ++ batch.flatMap (fan_out st)) := by
  intro batch
  induction batch with
  | nil => intro active _; simp [poll_loop]
  | cons e rest ih =>
    intro active hknown
    have he := hknown e (List.mem_cons_self _ _)
    obtain ⟨p, hp⟩ := Option.isSome_iff_exists.mp he
    unfold poll_loop
    rw [hp]
    simp only
    rw [poll_ready_eq_ready_bands, ih _ fun e' he' => hknown e' (List.mem_cons_of_mem _ he')]
    simp [fan_out, hp]

theorem poll_loop_unknown (st : iv_state) : ∀ (batch : List dvpoll_entry)
    (active : List ReadyEvent) (pre post : List dvpoll_entry) (e : dvpoll_entry),
    batch = pre ++ e :: post → (∀ e' ∈ pre, (iv_fd_avl_find st e'.fd).isSome = true) →
    iv_fd_avl_find st e.fd = none →
    poll_loop st batch active = .aborted (.unknown_fd e.fd) := by
  intro batch active pre
  induction pre generalizing batch active with
  | nil =>
    intro post e hb _ hnone
    subst hb
    rw [List.nil_append]
    unfold poll_loop
    rw [hnone]
  | cons e0 pre ih =>
    intro post e hb hknown hnone
    subst hb
    have he := hknown e0 (List.mem_cons_self _ _)
    obtain ⟨p, hp⟩ := Option.isSome_iff_exists.mp he
    rw [List.cons_append]
    unfold poll_loop
    rw [hp]
    simp only
    exact ih _ _ post e rfl (fun e' he' => hknown e' (List.mem_cons_of_mem _ he')) hnone

theorem poll_loop_congr (st : iv_state) {st' : iv_state}
    (hfind : ∀ key, iv_fd_avl_find st' key = iv_fd_avl_find st key) :
    ∀ (batch : List dvpoll_entry) (active : List ReadyEvent),
      poll_loop st' batch active = poll_loop st batch active := by
  intro batch
  induction batch with
  | nil => intro active; rfl
  | cons e rest ih =>
    intro active
    unfold poll_loop
    rw [hfind]
    cases iv_fd_avl_find st e.fd with
    | none => rfl
    | some p => exact ih _

/-- Either every returned entry is known to the registry, or there is a first one that is
not. -/
theorem batch_known_or_first_unknown (st : iv_state) : ∀ (batch : List dvpoll_entry),
    (∀ e ∈ batch, (iv_fd_avl_find st e.fd).isSome = true) ∨
      ∃ pre e post, batch = pre ++ e :: post ∧
        (∀ e' ∈ pre, (iv_fd_avl_find st e'.fd).isSome = true) ∧
        iv_fd_avl_find st e.fd = none := by
  intro batch
  induction batch with
  | nil => left; simp
  | cons e rest ih =>
    cases he : iv_fd_avl_find st e.fd with
    | none => exact Or.inr ⟨[], e, rest, rfl, by simp, he⟩
    | some p =>
      rcases ih with ih | ⟨pre, e1, post, hb, hpre, hnone⟩
      · left
        intro e' he'
        rcases List.mem_cons.mp he' with rfl | h
        · rw [he]; rfl
        · exact ih e' h
      · right
        refine ⟨e :: pre, e1, post, by rw [hb]; rfl, ?_, hnone⟩
        intro e' he'
        rcases List.mem_cons.mp he' with rfl | h
        · rw [he]; rfl
        · exact hpre e' h

/-- After a flush that returned, a successful wait leads to the loop over the returned
entries, which looks them up in the registry as it was before the flush. -/
theorem poll_events_eq {st st1 : iv_state} (active : List ReadyEvent) (msec : Int)
    (batch : List dvpoll_entry) (hflush : iv_dev_poll_flush_pending st = .returned st1) :
    iv_dev_poll_poll st active msec (.events batch) =
      (poll_loop st batch active).bind fun active1 =>
        .returned
          ({ st1 with log := st1.log ++ [Call.dp_poll st1.poll_fd st1.numfds msec] }, active1) := by
  unfold iv_dev_poll_poll
  rw [hflush, Outcome.bind_returned]
  simp only
  rw [poll_loop_congr st]
  intro key
  rw [← flush_pending_find hflush key]
  exact iv_fd_avl_find_congr rfl (fun _ => rfl) key

theorem ready_bands_hup (r : Nat) (h : has_bit r POLLHUP = true) :
    ready_bands r = [MASKIN, MASKOUT, MASKERR] := by
  simp [ready_bands, h]

theorem ready_bands_sublist (r : Nat) :
    List.Sublist (ready_bands r) [MASKIN, MASKOUT, MASKERR] := by
  unfold ready_bands
  split <;> split <;> split <;> simp

theorem poll_returned {st st3 : iv_state} {active active3 : List ReadyEvent} {msec : Int}
    {wait : dp_poll_result}
    (h : iv_dev_poll_poll st active msec wait = .returned (st3, active3)) :
    ∃ st2, iv_dev_poll_flush_pending st = .returned st2 ∧
      st3 = { st2 with log := st2.log ++ [Call.dp_poll st2.poll_fd st2.numfds msec] } := by
  unfold iv_dev_poll_poll at h
  obtain ⟨st2, hflush, h2⟩ := Outcome.bind_eq_returned h
  refine ⟨st2, hflush, ?_⟩
  cases wait with
  | error errno =>
    simp only at h2
    split at h2
    · exact (congrArg Prod.fst (Outcome.returned.inj h2)).symm
    · cases h2
  | events batch =>
    simp only at h2
    obtain ⟨a, _, h3⟩ := Outcome.bind_eq_returned h2
    exact (congrArg Prod.fst (Outcome.returned.inj h3)).symm

theorem calls_of_written_singleton {fd : Int} {e : pollfd} : ∀ (calls : List Call),
    (∀ c ∈ calls, ∃ b, c = Call.xwrite fd b ∧ b ≠ [] ∧ b.length ≤ UPLOAD_BATCH) →
    written calls = [e] → calls = [Call.xwrite fd [e]] := by
  intro calls hall hw
  cases calls with
  | nil => simp at hw
  | cons c cs =>
    obtain ⟨b, rfl, hb, _⟩ := hall _ (List.mem_cons_self _ _)
    have hsplit : written (Call.xwrite fd b :: cs) = b ++ written cs := by
      simp [written]
    rw [hsplit] at hw
    cases b with
    | nil => exact absurd rfl hb
    | cons x b' =>
      rw [List.cons_append, List.cons.injEq] at hw
      obtain ⟨hx, hrest⟩ := hw
      have hb' : b' = [] := (List.append_eq_nil.mp hrest).1
      have hcs : written cs = [] := (List.append_eq_nil.mp hrest).2
      cases cs with
      | nil => rw [hx, hb']
      | cons c2 cs' =>
        obtain ⟨b2, rfl, hb2, _⟩ := hall _ (List.mem_cons_of_mem _ (List.mem_cons_self _ _))
        have : written (Call.xwrite fd b2 :: cs') = b2 ++ written cs' := by
          simp [written]
        rw [this] at hcs
        exact absurd (List.append_eq_nil.mp hcs).1 hb2

theorem register_fd_returned {st st1 : iv_state} {p : Ptr}
    (h : iv_dev_poll_register_fd st p = .returned st1) :
    st1 = { st with fds := st.fds ++ [p] } ∧ iv_fd_avl_find st (st.mem p).fd = none := by
  unfold iv_dev_poll_register_fd iv_avl_tree_insert at h
  cases hf : iv_fd_avl_find st (st.mem p).fd with
  | some q => rw [hf] at h; cases h
  | none =>
    rw [hf] at h
    exact ⟨(Outcome.returned.inj h).symm, rfl⟩

theorem bits_to_poll_mask_MASKIN : bits_to_poll_mask MASKIN = POLLIN := by decide

/-! ## The claims -/

/-- C1 (flush convergence). Take any state and any sequence of interest changes, each
announced by `iv_dev_poll_notify_fd`. With a cooperative kernel the following
`iv_dev_poll_flush_pending` returns; and whenever it returns, the pending-change queue is
empty, `registered_bands = wanted_bands` holds for every record that was queued when the
flush started and for every record that was queued at the outset or announced in the
sequence, the flush has left `wanted_bands` alone, and the registered interest of a record
is the value of its last announced change, whatever values were set before it. -/
theorem flush_convergence (st : iv_state) (cs : List (Ptr × Nat)) :
    (cooperative (announce st cs).writes (announce st cs).notify.length = true →
      ∃ st2, iv_dev_poll_flush_pending (announce st cs) = .returned st2) ∧
    ∀ st2, iv_dev_poll_flush_pending (announce st cs) = .returned st2 →
      st2.notify = [] ∧
      (∀ p, p ∈ (announce st cs).notify →
        (st2.mem p).registered_bands = (st2.mem p).wanted_bands) ∧
      (∀ p, p ∈ st.notify ∨ p ∈ cs.map Prod.fst →
        (st2.mem p).registered_bands = (st2.mem p).wanted_bands) ∧
      (∀ p, (st2.mem p).wanted_bands = ((announce st cs).mem p).wanted_bands) ∧
      (∀ pre post p bands, cs = pre ++ (p, bands) :: post → p ∉ post.map Prod.fst →
        (st2.mem p).registered_bands = bands) := by
  refine ⟨flush_pending_returns, ?_⟩
  intro st2 h
  obtain ⟨hn, hm, _⟩ := flush_pending_returned h
  have hset : ∀ p, p ∈ st.notify ∨ p ∈ cs.map Prod.fst →
      (st2.mem p).registered_bands = (st2.mem p).wanted_bands := by
    intro p hp
    rw [hm]
    apply sync_mem_settled
    apply settled_announce
    rcases hp with hp | hp
    · exact Or.inl (Or.inl hp)
    · exact Or.inr hp
  have hw : ∀ p, (st2.mem p).wanted_bands = ((announce st cs).mem p).wanted_bands := by
    intro p
    rw [hm, sync_mem_wanted]
  refine ⟨hn, ?_, hset, hw, ?_⟩
  · intro p hp
    rw [hm]
    exact sync_mem_settled (Or.inl hp)
  · intro pre post p bands hcs hpost
    rw [hset p (Or.inr (by rw [hcs]; simp)), hw, hcs, announce_append, announce_cons,
      announce_mem_of_not_mem _ _ _ hpost, notify_fd_mem, set_wanted_bands_mem_self]

/-- Witness of C1 on the sample state: descriptor 5 gains `IN`, descriptor 7 is set to `OUT`
and then to `IN`, descriptor 9 drops to empty; the flush returns with an empty queue and
descriptor 7 registered for `IN`. -/
theorem flush_convergence_witness :
    ∃ st2, iv_dev_poll_flush_pending
        (announce sample_state [(5, MASKIN), (7, MASKOUT), (7, MASKIN), (9, 0)]) = .returned st2 ∧
      st2.notify = [] ∧ (st2.mem 7).registered_bands = MASKIN :=
  let ⟨st2, h⟩ := (flush_convergence sample_state
    [(5, MASKIN), (7, MASKOUT), (7, MASKIN), (9, 0)]).1 (by decide)
  ⟨st2, h,
    ((flush_convergence sample_state [(5, MASKIN), (7, MASKOUT), (7, MASKIN), (9, 0)]).2 st2 h).1,
    ((flush_convergence sample_state
      [(5, MASKIN), (7, MASKOUT), (7, MASKIN), (9, 0)]).2 st2 h).2.2.2.2
      [(5, MASKIN), (7, MASKOUT)] [(9, 0)] 7 MASKIN rfl (by decide)⟩

/-- C2 (unregister forces a flush). For a registered record `p` of a registry with one record
per descriptor number: with a cooperative kernel `iv_dev_poll_unregister_fd` returns; and
whenever it returns, `p` is absent from the registry (which lost exactly this record, and in
which a lookup of the descriptor number of `p` now fails) and the pending-change queue is
empty, so it holds no entry for `p`, whether or not `p` was queued before the call. -/
theorem unregister_forces_flush (st : iv_state) (p : Ptr) (hreg : p ∈ st.fds)
    (hkeys : registry_keys_unique st) :
    (cooperative st.writes st.notify.length = true →
      ∃ st', iv_dev_poll_unregister_fd st p = .returned st') ∧
    ∀ st', iv_dev_poll_unregister_fd st p = .returned st' →
      p ∉ st'.fds ∧ iv_fd_avl_find st' (st.mem p).fd = none ∧
      st'.notify = [] ∧ p ∉ st'.notify ∧
      (∀ q, q ≠ p → (q ∈ st'.fds ↔ q ∈ st.fds)) ∧ st'.fds.length + 1 = st.fds.length := by
  have hnd : st.fds.Nodup := List.Nodup.of_map _ hkeys
  refine ⟨fun hco => flush_pending_returns hco, ?_⟩
  intro st' h
  unfold iv_dev_poll_unregister_fd iv_avl_tree_delete at h
  obtain ⟨hn, hm, _, hfds, _⟩ := flush_pending_returned h
  simp only at hm hfds
  refine ⟨?_, ?_, hn, by rw [hn]; simp, ?_, ?_⟩
  · rw [hfds]
    exact hnd.not_mem_erase
  · rw [iv_fd_avl_find_eq_none]
    intro q hq hfd
    rw [hfds, hnd.mem_erase_iff] at hq
    rw [hm, sync_mem_fd] at hfd
    exact hq.1 (List.inj_on_of_nodup_map hkeys hq.2 hreg hfd)
  · intro q hq
    rw [hfds, hnd.mem_erase_iff]
    exact ⟨fun h => h.2, fun h => ⟨hq, h⟩⟩
  · rw [hfds, List.length_erase_of_mem hreg]
    have : 0 < st.fds.length := List.length_pos_of_mem hreg
    omega

/-- Witness of C2: in the sample state, descriptor 7 is narrowed to `IN` (and so queued) and
then unregistered; the call returns, the registry is left with 5 and 9, and nothing is
queued. -/
theorem unregister_forces_flush_witness :
    ∃ st', iv_dev_poll_unregister_fd (announce sample_state [(7, MASKIN)]) 7 = .returned st' ∧
      7 ∉ st'.fds ∧ st'.notify = [] ∧ st'.fds.length + 1 = 3 :=
  let ⟨st', h⟩ := (unregister_forces_flush (announce sample_state [(7, MASKIN)]) 7
    (by decide) (by decide)).1 (by decide)
  have hall := (unregister_forces_flush (announce sample_state [(7, MASKIN)]) 7
    (by decide) (by decide)).2 st' h
  ⟨st', h, hall.1, hall.2.2.1, hall.2.2.2.2.2⟩

/-- C3 (readiness fan-out). After a flush that returned, if the wait succeeds with entries
whose descriptors are all in the registry, `iv_dev_poll_poll` returns, and the events it
emitted are, entry by entry in the order the kernel returned them, the bands of each entry
for the record the registry holds for it. The bands of an entry come in the order `IN`,
`OUT`, `ERR`: `IN` iff `revents` has `POLLIN`, `POLLERR` or `POLLHUP`, `OUT` iff it has
`POLLOUT`, `POLLERR` or `POLLHUP`, `ERR` iff it has `POLLERR` or `POLLHUP`; an entry with
hang-up (with or without input-ready) yields exactly `IN`, `OUT`, `ERR`. -/
theorem readiness_fan_out (st st1 : iv_state) (active : List ReadyEvent) (msec : Int)
    (batch : List dvpoll_entry) (hflush : iv_dev_poll_flush_pending st = .returned st1)
    (hknown : ∀ e ∈ batch, (iv_fd_avl_find st e.fd).isSome = true) :
    (∃ st2, iv_dev_poll_poll st active msec (.events batch) =
      .returned (st2, active ++ batch.flatMap (fan_out st))) ∧
    (∀ e p, iv_fd_avl_find st e.fd = some p →
      fan_out st e = (ready_bands e.revents).map fun band => (p, band)) ∧
    (∀ r, List.Sublist (ready_bands r) [MASKIN, MASKOUT, MASKERR] ∧
      (MASKIN ∈ ready_bands r ↔ r &&& POLLIN ≠ 0 ∨ r &&& POLLERR ≠ 0 ∨ r &&& POLLHUP ≠ 0) ∧
      (MASKOUT ∈ ready_bands r ↔ r &&& POLLOUT ≠ 0 ∨ r &&& POLLERR ≠ 0 ∨ r &&& POLLHUP ≠ 0) ∧
      (MASKERR ∈ ready_bands r ↔ r &&& POLLERR ≠ 0 ∨ r &&& POLLHUP ≠ 0)) ∧
    (∀ r, r &&& POLLHUP ≠ 0 → ready_bands r = [MASKIN, MASKOUT, MASKERR]) := by
  refine ⟨?_, ?_, ?_, ?_⟩
  · rw [poll_events_eq active msec batch hflush, poll_loop_known st batch active hknown]
    exact ⟨_, rfl⟩
  · intro e p hp
    simp [fan_out, hp]
  · intro r
    refine ⟨ready_bands_sublist r, ?_, ?_, ?_⟩
    · simp only [ready_bands, has_bit, MASKIN, MASKOUT, MASKERR]
      split <;> split <;> split <;> simp_all
    · simp only [ready_bands, has_bit, MASKIN, MASKOUT, MASKERR]
      split <;> split <;> split <;> simp_all
    · simp only [ready_bands, has_bit, MASKIN, MASKOUT, MASKERR]
      split <;> split <;> split <;> simp_all
  · intro r hr
    exact ready_bands_hup r (by simpa [has_bit] using hr)

/-- Witness of C3: in the sample state the kernel reports descriptor 7 with input-ready and
hang-up; the poll returns exactly `(7, IN)`, `(7, OUT)`, `(7, ERR)`, in that order. -/
theorem readiness_fan_out_witness :
    ∃ st2, iv_dev_poll_poll sample_state [] 0 (.events [⟨7, POLLIN ||| POLLHUP⟩]) =
      .returned (st2, [(7, MASKIN), (7, MASKOUT), (7, MASKERR)]) :=
  (readiness_fan_out sample_state sample_state [] 0 [⟨7, POLLIN ||| POLLHUP⟩] rfl
    (by decide)).1

/-- C4 (queue-membership invariant). In a state whose queue holds every record at most once
(it is an intrusive list) and in which every registered record is queued iff its
`wanted_bands` differs from its `registered_bands`: (a) the same holds after any record's
`wanted_bands` is changed and `iv_dev_poll_notify_fd` is called on it; (b) with a cooperative
kernel `iv_dev_poll_flush_pending` returns, and the same holds whenever it returns; and right
after `iv_dev_poll_notify_fd (p)` the record `p` is queued iff its `wanted_bands` differs
from its `registered_bands`. -/
theorem queue_membership_invariant (st : iv_state) (hnd : st.notify.Nodup)
    (hinv : queue_inv st) :
    (∀ p bands,
      queue_inv (iv_dev_poll_notify_fd (set_wanted_bands st p bands) p) ∧
      (iv_dev_poll_notify_fd (set_wanted_bands st p bands) p).notify.Nodup) ∧
    (cooperative st.writes st.notify.length = true →
      ∃ st', iv_dev_poll_flush_pending st = .returned st') ∧
    (∀ st', iv_dev_poll_flush_pending st = .returned st' →
      queue_inv st' ∧ st'.notify.Nodup) ∧
    (∀ p, p ∈ (iv_dev_poll_notify_fd st p).notify ↔
      (st.mem p).wanted_bands ≠ (st.mem p).registered_bands) := by
  refine ⟨?_, flush_pending_returns, ?_, fun p => mem_notify_fd_self p hnd⟩
  · intro p bands
    have hnd' : (set_wanted_bands st p bands).notify.Nodup := hnd
    refine ⟨?_, notify_fd_nodup p hnd'⟩
    intro q hq
    rw [notify_fd_fds, set_wanted_bands_fds] at hq
    by_cases hqp : q = p
    · subst hqp
      rw [mem_notify_fd_self q hnd', notify_fd_mem]
    · rw [mem_notify_fd_of_ne hqp, notify_fd_mem, set_wanted_bands_mem_of_ne _ hqp]
      exact hinv q hq
  · intro st' h
    obtain ⟨hn, hm, _, hfds, _⟩ := flush_pending_returned h
    refine ⟨?_, by rw [hn]; exact List.nodup_nil⟩
    intro q hq
    rw [hfds] at hq
    rw [hn, hm]
    by_cases hqn : q ∈ st.notify
    · rw [sync_mem_of_mem hqn]
      simp
    · rw [sync_mem_of_not_mem hqn]
      have := hinv q hq
      simp only [List.not_mem_nil, false_iff]
      exact fun hne => hqn (this.mpr hne)

/-- Witness of C4 on the sample state: narrowing descriptor 7 to `IN` and announcing it keeps
the invariant and queues descriptor 7. -/
theorem queue_membership_invariant_witness :
    queue_inv (iv_dev_poll_notify_fd (set_wanted_bands sample_state 7 MASKIN) 7) ∧
      (iv_dev_poll_notify_fd (set_wanted_bands sample_state 7 MASKIN) 7).notify = [7] :=
  ⟨((queue_membership_invariant sample_state (by decide) (by decide)).1 7 MASKIN).1, by decide⟩

/-- C5 (at-most-once queueing). Starting from a queue without duplicates, any sequence of
`iv_dev_poll_notify_fd` calls, on any records, with or without a change of `wanted_bands`
before each call, leaves every record in the queue at most once; and calling
`iv_dev_poll_notify_fd` twice in a row on the same record, with `wanted_bands` unchanged in
between or set to the same value again, gives the same state (so the same queue) as calling
it once. -/
theorem at_most_once_queueing (st : iv_state) (ops : List (Ptr × Option Nat))
    (hnd : st.notify.Nodup) :
    (notify_all st ops).notify.Nodup ∧
    (∀ p, (notify_all st ops).notify.count p ≤ 1) ∧
    (∀ p, iv_dev_poll_notify_fd (iv_dev_poll_notify_fd st p) p = iv_dev_poll_notify_fd st p) ∧
    (∀ p bands,
      iv_dev_poll_notify_fd
          (set_wanted_bands (iv_dev_poll_notify_fd (set_wanted_bands st p bands) p) p bands) p =
        iv_dev_poll_notify_fd (set_wanted_bands st p bands) p) := by
  have h := notify_all_nodup ops st hnd
  exact ⟨h, fun p => List.nodup_iff_count_le_one.mp h p, fun p => notify_fd_twice p hnd,
    fun p bands => announce_twice p bands hnd⟩

/-- Witness of C5 on the sample state: four calls, two of them repeated on descriptor 7, leave
descriptors 7 and 5 queued once each. -/
theorem at_most_once_queueing_witness :
    (notify_all sample_state
        [(7, some MASKIN), (7, none), (5, some MASKIN), (7, some MASKIN)]).notify.Nodup ∧
      (notify_all sample_state
        [(7, some MASKIN), (7, none), (5, some MASKIN), (7, some MASKIN)]).notify = [5, 7] :=
  ⟨(at_most_once_queueing sample_state
      [(7, some MASKIN), (7, none), (5, some MASKIN), (7, some MASKIN)] (by decide)).1,
    by decide⟩

/-- C6, as stated, fails: in the sample state descriptor 7 is registered for `IN|OUT`; its
interest is set to `IN` and announced twice in a row; the flush then writes two entries that
name descriptor 7, the removal and the add. -/
theorem idempotent_notify_counterexample :
    ∃ st', iv_dev_poll_flush_pending
        (iv_dev_poll_notify_fd
          (iv_dev_poll_notify_fd (set_wanted_bands sample_state 7 MASKIN) 7) 7) = .returned st' ∧
      written_for 7 st'.log = [⟨7, POLLREMOVE⟩, ⟨7, POLLIN⟩] ∧
      ¬ (written_for 7 st'.log).length ≤ 1 :=
  ⟨_, rfl, by decide, by decide⟩

/-- C6, amended. When no record is queued twice and no other queued record carries the
descriptor number of `p`: announcing a value of `wanted_bands` for `p` a second time, or
calling `iv_dev_poll_notify_fd (p)` again with `wanted_bands` unchanged, gives the same state
as the single announcement; with a cooperative kernel the next flush returns; and whenever it
returns, the entries it wrote for the descriptor of `p` are: none if the value equals
`registered_bands`, and otherwise the entries owed for `p`, which are at most the removal entry
followed by the add entry, each at most once. -/
theorem idempotent_notify_entries (st : iv_state) (p : Ptr) (bands : Nat)
    (hnd : st.notify.Nodup)
    (hne : ∀ x ∈ st.notify, x ≠ p → (st.mem x).fd ≠ (st.mem p).fd) :
    iv_dev_poll_notify_fd
        (set_wanted_bands (iv_dev_poll_notify_fd (set_wanted_bands st p bands) p) p bands) p =
      iv_dev_poll_notify_fd (set_wanted_bands st p bands) p ∧
    iv_dev_poll_notify_fd (iv_dev_poll_notify_fd (set_wanted_bands st p bands) p) p =
      iv_dev_poll_notify_fd (set_wanted_bands st p bands) p ∧
    (cooperative st.writes (iv_dev_poll_notify_fd (set_wanted_bands st p bands) p).notify.length
        = true →
      ∃ st', iv_dev_poll_flush_pending (iv_dev_poll_notify_fd (set_wanted_bands st p bands) p) =
        .returned st') ∧
    ∀ st', iv_dev_poll_flush_pending (iv_dev_poll_notify_fd (set_wanted_bands st p bands) p) =
        .returned st' →
      written_for (st.mem p).fd st'.log =
        written_for (st.mem p).fd st.log ++
          (if (st.mem p).registered_bands ≠ bands then
            fd_entries { st.mem p with wanted_bands := bands } else []) ∧
      List.Sublist
        (if (st.mem p).registered_bands ≠ bands then
          fd_entries { st.mem p with wanted_bands := bands } else [])
        [⟨(st.mem p).fd, POLLREMOVE⟩, ⟨(st.mem p).fd, bits_to_poll_mask bands⟩] := by
  have hnd0 : (set_wanted_bands st p bands).notify.Nodup := hnd
  refine ⟨announce_twice p bands hnd, notify_fd_twice p hnd0, fun hco => flush_pending_returns
    (by rw [notify_fd_writes]; exact hco), ?_⟩
  intro st' h
  have hnd1 := notify_fd_nodup p hnd0
  have hmemp : (iv_dev_poll_notify_fd (set_wanted_bands st p bands) p).mem p =
      { st.mem p with wanted_bands := bands } := by
    rw [notify_fd_mem, set_wanted_bands_mem_self]
  have hne1 : ∀ x ∈ (iv_dev_poll_notify_fd (set_wanted_bands st p bands) p).notify, x ≠ p →
      ((iv_dev_poll_notify_fd (set_wanted_bands st p bands) p).mem x).fd ≠
        ((iv_dev_poll_notify_fd (set_wanted_bands st p bands) p).mem p).fd := by
    intro x hx hxp
    rw [mem_notify_fd_of_ne hxp] at hx
    rw [hmemp, notify_fd_mem, set_wanted_bands_mem_of_ne _ hxp]
    exact hne x hx hxp
  have hw := flush_written_for h hnd1 hne1
  have hpq := mem_notify_fd_self p hnd0
  rw [set_wanted_bands_mem_self] at hpq
  rw [hmemp, notify_fd_log] at hw
  by_cases hc : (st.mem p).registered_bands = bands
  · have hnot : p ∉ (iv_dev_poll_notify_fd (set_wanted_bands st p bands) p).notify :=
      fun hin => hpq.mp hin hc.symm
    rw [if_neg hnot] at hw
    rw [if_neg (not_not.mpr hc)]
    exact ⟨hw, List.nil_sublist _⟩
  · have hin : p ∈ (iv_dev_poll_notify_fd (set_wanted_bands st p bands) p).notify :=
      hpq.mpr fun e => hc e.symm
    rw [if_pos hin] at hw
    rw [if_pos hc]
    exact ⟨hw, fd_entries_sublist _⟩

/-- Witness of C6 (amended) on the sample state: after the interest of descriptor 7 is set to
`IN` and announced, the flush writes the removal entry and the add entry for it, once each. -/
theorem idempotent_notify_entries_witness :
    ∃ st', iv_dev_poll_flush_pending
        (iv_dev_poll_notify_fd (set_wanted_bands sample_state 7 MASKIN) 7) = .returned st' ∧
      written_for 7 st'.log = [⟨7, POLLREMOVE⟩, ⟨7, POLLIN⟩] :=
  let ⟨st', h⟩ := (idempotent_notify_entries sample_state 7 MASKIN (by decide)
    (by decide)).2.2.1 (by decide)
  ⟨st', h, ((idempotent_notify_entries sample_state 7 MASKIN (by decide)
    (by decide)).2.2.2 st' h).1⟩

/-- C7 (narrowing emits remove then add). For a queued record `p` whose `registered_bands` has
a bit that its `wanted_bands` lacks and whose `wanted_bands` is not empty, the queued records
carrying distinct descriptor numbers: with a cooperative kernel the flush returns, and whenever
it returns it has written for the descriptor of `p` exactly two entries, in order: the removal
entry, then the add entry with the kernel mask of `wanted_bands`. -/
theorem narrowing_remove_then_add (st : iv_state) (p : Ptr) (hp : p ∈ st.notify)
    (hkeys : queue_keys_unique st)
    (hbit : ∃ i, (st.mem p).registered_bands.testBit i = true ∧
      (st.mem p).wanted_bands.testBit i = false)
    (hw : (st.mem p).wanted_bands ≠ 0) :
    (cooperative st.writes st.notify.length = true →
      ∃ st', iv_dev_poll_flush_pending st = .returned st') ∧
    ∀ st', iv_dev_poll_flush_pending st = .returned st' →
      written_for (st.mem p).fd st'.log =
        written_for (st.mem p).fd st.log ++
          [⟨(st.mem p).fd, POLLREMOVE⟩,
           ⟨(st.mem p).fd, bits_to_poll_mask (st.mem p).wanted_bands⟩] := by
  refine ⟨flush_pending_returns, ?_⟩
  intro st' h
  rw [flush_written_for_queued h hkeys hp, fd_entries_narrowed hbit hw]

/-- Witness of C7, the scenario of the specification: descriptor 7 has
`registered_bands = IN|OUT`, its `wanted_bands` is set to `IN` and announced; the flush emits
the removal entry for 7 followed by the add entry `{7, IN}`. -/
theorem narrowing_remove_then_add_witness :
    ∃ st', iv_dev_poll_flush_pending (announce sample_state [(7, MASKIN)]) = .returned st' ∧
      written_for 7 st'.log = [⟨7, POLLREMOVE⟩, ⟨7, POLLIN⟩] :=
  let ⟨st', h⟩ := (narrowing_remove_then_add (announce sample_state [(7, MASKIN)]) 7
    (by decide) (by decide) ⟨1, by decide, by decide⟩ (by decide)).1 (by decide)
  ⟨st', h, (narrowing_remove_then_add (announce sample_state [(7, MASKIN)]) 7
    (by decide) (by decide) ⟨1, by decide, by decide⟩ (by decide)).2 st' h⟩

/-- C8 (drop to empty emits only a removal). For a queued record `p` with non-empty
`registered_bands` and `wanted_bands = 0`, the queued records carrying distinct descriptor
numbers: with a cooperative kernel the flush returns, and whenever it returns it has written
for the descriptor of `p` exactly one entry, the removal entry (so no add entry), and
`registered_bands` of `p` is 0. -/
theorem drop_to_empty_only_removal (st : iv_state) (p : Ptr) (hp : p ∈ st.notify)
    (hkeys : queue_keys_unique st) (hr : (st.mem p).registered_bands ≠ 0)
    (hw : (st.mem p).wanted_bands = 0) :
    (cooperative st.writes st.notify.length = true →
      ∃ st', iv_dev_poll_flush_pending st = .returned st') ∧
    ∀ st', iv_dev_poll_flush_pending st = .returned st' →
      written_for (st.mem p).fd st'.log =
        written_for (st.mem p).fd st.log ++ [⟨(st.mem p).fd, POLLREMOVE⟩] ∧
      (st'.mem p).registered_bands = 0 := by
  refine ⟨flush_pending_returns, ?_⟩
  intro st' h
  refine ⟨?_, ?_⟩
  · rw [flush_written_for_queued h hkeys hp, fd_entries_dropped hr hw]
  · obtain ⟨_, hm, _⟩ := flush_pending_returned h
    rw [hm, sync_mem_of_mem hp, sync_fd_registered, hw]

/-- Witness of C8, the scenario of the specification: descriptor 9 has
`registered_bands = IN`, its `wanted_bands` is set to 0 and announced; the flush emits only
the removal entry for 9, and `registered_bands` becomes 0. -/
theorem drop_to_empty_only_removal_witness :
    ∃ st', iv_dev_poll_flush_pending (announce sample_state [(9, 0)]) = .returned st' ∧
      written_for 9 st'.log = [⟨9, POLLREMOVE⟩] ∧ (st'.mem 9).registered_bands = 0 :=
  let ⟨st', h⟩ := (drop_to_empty_only_removal (announce sample_state [(9, 0)]) 9
    (by decide) (by decide) (by decide) (by decide)).1 (by decide)
  ⟨st', h, (drop_to_empty_only_removal (announce sample_state [(9, 0)]) 9
    (by decide) (by decide) (by decide) (by decide)).2 st' h⟩

/-- C9 (add, then poll). A record `p` with `registered_bands = 0` is registered on a state
with an empty queue, and its interest `wanted_bands = IN` is announced. With a cooperative
kernel and a wait that is interrupted or succeeds with known descriptors, the following
`iv_dev_poll_poll` returns; and whenever it returns, the calls it made are exactly one write
of the single batch entry `(fd, POLLIN)`, with no removal entry, followed by the single
`DP_POLL` wait call, and the pending-change queue is empty, `p` being registered with the
kernel for `IN`. -/
theorem add_then_poll (st st1 : iv_state) (p : Ptr) (active : List ReadyEvent) (msec : Int)
    (wait : dp_poll_result) (hq : st.notify = []) (hr : (st.mem p).registered_bands = 0)
    (hreg : iv_dev_poll_register_fd st p = .returned st1) :
    (cooperative st.writes 1 = true →
      (∀ errno, wait = .error errno → errno = EINTR) →
      (∀ batch, wait = .events batch → ∀ e ∈ batch,
        (iv_fd_avl_find (iv_dev_poll_notify_fd (set_wanted_bands st1 p MASKIN) p) e.fd).isSome
          = true) →
      ∃ r, iv_dev_poll_poll (iv_dev_poll_notify_fd (set_wanted_bands st1 p MASKIN) p)
        active msec wait = .returned r) ∧
    ∀ st3 active3,
      iv_dev_poll_poll (iv_dev_poll_notify_fd (set_wanted_bands st1 p MASKIN) p)
        active msec wait = .returned (st3, active3) →
      st3.log = st.log ++ [Call.xwrite st.poll_fd [⟨(st.mem p).fd, POLLIN⟩],
        Call.dp_poll st.poll_fd st.numfds msec] ∧
      st3.notify = [] ∧ p ∈ st3.fds ∧ (st3.mem p).registered_bands = MASKIN := by
  obtain ⟨rfl, _⟩ := register_fd_returned hreg
  have hmemp : (iv_dev_poll_notify_fd
      (set_wanted_bands { st with fds := st.fds ++ [p] } p MASKIN) p).mem p =
        { st.mem p with wanted_bands := MASKIN } := by
    rw [notify_fd_mem, set_wanted_bands_mem_self]
  have hnotify : (iv_dev_poll_notify_fd
      (set_wanted_bands { st with fds := st.fds ++ [p] } p MASKIN) p).notify = [p] := by
    rw [notify_fd_notify, set_wanted_bands_mem_self, set_wanted_bands_notify]
    simp only [hq, hr]
    rw [if_pos (by decide)]
    rfl
  have hentries : queue_entries (iv_dev_poll_notify_fd
      (set_wanted_bands { st with fds := st.fds ++ [p] } p MASKIN) p).mem [p] =
        [⟨(st.mem p).fd, POLLIN⟩] := by
    unfold queue_entries
    rw [hmemp]
    unfold queue_entries fd_entries
    simp only [hr, zero_and_not, bits_to_poll_mask_MASKIN]
    rfl
  constructor
  · intro hco herr hev
    have hco' : cooperative (iv_dev_poll_notify_fd
        (set_wanted_bands { st with fds := st.fds ++ [p] } p MASKIN) p).writes
        (iv_dev_poll_notify_fd
          (set_wanted_bands { st with fds := st.fds ++ [p] } p MASKIN) p).notify.length
          = true := by
      rw [hnotify, notify_fd_writes]
      exact hco
    obtain ⟨st2, hflush⟩ := flush_pending_returns hco'
    cases wait with
    | error errno =>
      unfold iv_dev_poll_poll
      rw [hflush, Outcome.bind_returned]
      simp only
      rw [if_pos (herr errno rfl)]
      exact ⟨_, rfl⟩
    | events batch =>
      rw [poll_events_eq active msec batch hflush, poll_loop_known _ batch active (hev batch rfl)]
      exact ⟨_, rfl⟩
  · intro st3 active3 h
    obtain ⟨st2, hflush, rfl⟩ := poll_returned h
    obtain ⟨hn, hm, hnum, hfds, hpfd, calls, hlog, hw, hcalls⟩ := flush_pending_returned hflush
    rw [hnotify, hentries] at hw
    have hc := calls_of_written_singleton calls hcalls hw
    refine ⟨?_, hn, ?_, ?_⟩
    · show st2.log ++ [Call.dp_poll st2.poll_fd st2.numfds msec] = _
      rw [hlog, hc, hpfd, hnum, notify_fd_log, notify_fd_poll_fd, notify_fd_numfds,
        List.append_assoc]
      rfl
    · show p ∈ st2.fds
      rw [hfds, notify_fd_fds]
      show p ∈ st.fds ++ [p]
      simp
    · show (st2.mem p).registered_bands = MASKIN
      rw [hm, hnotify, sync_mem_of_mem (List.mem_singleton_self p), sync_fd_registered, hmemp]

/-- Witness of C9, the scenario of the specification: descriptor 5 is registered with
`wanted_bands = IN`; the poll (its wait being interrupted) writes the one batch entry
`{5, IN}` before the wait call, and nothing remains pending. -/
theorem add_then_poll_witness :
    ∃ r, iv_dev_poll_poll
        (iv_dev_poll_notify_fd
          (set_wanted_bands { sample_unregistered with fds := [7, 9, 5] } 5 MASKIN) 5)
        [] 1000 (.error EINTR) = .returned r ∧
      r.1.log = [Call.xwrite 100 [⟨5, POLLIN⟩], Call.dp_poll 100 3 1000] ∧ r.1.notify = [] :=
  have thm := add_then_poll sample_unregistered { sample_unregistered with fds := [7, 9, 5] } 5
    [] 1000 (.error EINTR) rfl rfl rfl
  let ⟨r, h⟩ := thm.1 (by decide) (fun _ he => by cases he; rfl) (fun _ hb => by cases hb)
  ⟨r, h, (thm.2 r.1 r.2 h).1, (thm.2 r.1 r.2 h).2.1⟩

/-- C10 (unknown-descriptor fatality). After a flush that returned and a wait that succeeded,
`iv_dev_poll_poll` aborts iff some returned entry names a descriptor that has no record in
the registry; it then aborts at the first such entry, reporting its descriptor number, so
the entry is not skipped; and when every returned descriptor is in the registry the call
returns. -/
theorem unknown_descriptor_fatal (st st1 : iv_state) (active : List ReadyEvent) (msec : Int)
    (batch : List dvpoll_entry) (hflush : iv_dev_poll_flush_pending st = .returned st1) :
    ((∃ why, iv_dev_poll_poll st active msec (.events batch) = .aborted why) ↔
      ∃ e ∈ batch, iv_fd_avl_find st e.fd = none) ∧
    (∀ pre e post, batch = pre ++ e :: post →
      (∀ e' ∈ pre, (iv_fd_avl_find st e'.fd).isSome = true) →
      iv_fd_avl_find st e.fd = none →
      iv_dev_poll_poll st active msec (.events batch) = .aborted (.unknown_fd e.fd)) ∧
    ((∀ e ∈ batch, (iv_fd_avl_find st e.fd).isSome = true) →
      ∃ r, iv_dev_poll_poll st active msec (.events batch) = .returned r) := by
  have hfirst : ∀ pre e post, batch = pre ++ e :: post →
      (∀ e' ∈ pre, (iv_fd_avl_find st e'.fd).isSome = true) →
      iv_fd_avl_find st e.fd = none →
      iv_dev_poll_poll st active msec (.events batch) = .aborted (.unknown_fd e.fd) := by
    intro pre e post hb hpre hnone
    rw [poll_events_eq active msec batch hflush,
      poll_loop_unknown st batch active pre post e hb hpre hnone]
    rfl
  have hknown : (∀ e ∈ batch, (iv_fd_avl_find st e.fd).isSome = true) →
      ∃ r, iv_dev_poll_poll st active msec (.events batch) = .returned r := by
    intro hall
    rw [poll_events_eq active msec batch hflush, poll_loop_known st batch active hall]
    exact ⟨_, rfl⟩
  refine ⟨⟨?_, ?_⟩, hfirst, hknown⟩
  · rintro ⟨why, hab⟩
    rcases batch_known_or_first_unknown st batch with hall | ⟨pre, e, post, hb, _, hnone⟩
    · obtain ⟨r, hr⟩ := hknown hall
      rw [hr] at hab
      cases hab
    · exact ⟨e, by rw [hb]; simp, hnone⟩
  · rintro ⟨e, he, hnone⟩
    rcases batch_known_or_first_unknown st batch with hall | ⟨pre, e1, post, hb, hpre, hnone1⟩
    · have := hall e he
      rw [hnone] at this
      cases this
    · exact ⟨_, hfirst pre e1 post hb hpre hnone1⟩

/-- Witness of C10 on the sample state: the kernel reports descriptor 7, which is registered,
and then descriptor 8, which is not; the poll aborts on descriptor 8. -/
theorem unknown_descriptor_fatal_witness :
    iv_dev_poll_poll sample_state [] 0 (.events [⟨7, POLLIN⟩, ⟨8, POLLIN⟩]) =
      .aborted (.unknown_fd 8) :=
  (unknown_descriptor_fatal sample_state sample_state [] 0 [⟨7, POLLIN⟩, ⟨8, POLLIN⟩] rfl).2.1
    [⟨7, POLLIN⟩] ⟨8, POLLIN⟩ [] rfl (by decide) (by decide)

/-! ## Wait failures, frame conditions, re-enqueueing -/

theorem poll_error_eq {st st1 : iv_state} (active : List ReadyEvent) (msec : Int) (errno : Nat)
    (hflush : iv_dev_poll_flush_pending st = .returned st1) :
    iv_dev_poll_poll st active msec (.error errno) =
      if errno = EINTR then
        .returned
          ({ st1 with log := st1.log ++ [Call.dp_poll st1.poll_fd st1.numfds msec] }, active)
      else .aborted (.poll_error errno) := by
  unfold iv_dev_poll_poll
  rw [hflush, Outcome.bind_returned]

theorem poll_aborted_of_flush {st : iv_state} {why : Fatal} (active : List ReadyEvent)
    (msec : Int) (wait : dp_poll_result)
    (hflush : iv_dev_poll_flush_pending st = .aborted why) :
    iv_dev_poll_poll st active msec wait = .aborted why := by
  unfold iv_dev_poll_poll
  rw [hflush, Outcome.bind_aborted]

/-- C11 (wait failure handling). With a cooperative kernel, a poll whose `DP_POLL` call fails
with `EINTR` returns. Whenever the flush that precedes the wait has returned: if the wait fails
with `EINTR` the poll returns with the active list as it was passed in (no readiness event
emitted), in the state the flush left, where the queue is empty and
`registered_bands = wanted_bands` for the records that were drained; if the wait fails with
any other error the poll aborts, reporting that error. -/
theorem wait_failure_handling (st : iv_state) (active : List ReadyEvent) (msec : Int)
    (errno : Nat) :
    (cooperative st.writes st.notify.length = true → errno = EINTR →
      ∃ st2, iv_dev_poll_poll st active msec (.error errno) = .returned (st2, active)) ∧
    ∀ st1, iv_dev_poll_flush_pending st = .returned st1 →
      (errno = EINTR →
        iv_dev_poll_poll st active msec (.error errno) =
          .returned
            ({ st1 with log := st1.log ++ [Call.dp_poll st1.poll_fd st1.numfds msec] },
             active)) ∧
      (errno ≠ EINTR →
        iv_dev_poll_poll st active msec (.error errno) = .aborted (.poll_error errno)) ∧
      st1.notify = [] ∧
      (∀ p ∈ st.notify, (st1.mem p).registered_bands = (st1.mem p).wanted_bands ∧
        (st1.mem p).wanted_bands = (st.mem p).wanted_bands) := by
  constructor
  · intro hco he
    obtain ⟨st1, hflush⟩ := flush_pending_returns hco
    rw [poll_error_eq active msec errno hflush, if_pos he]
    exact ⟨_, rfl⟩
  · intro st1 hflush
    obtain ⟨hn, hm, _⟩ := flush_pending_returned hflush
    refine ⟨?_, ?_, hn, ?_⟩
    · intro he
      rw [poll_error_eq active msec errno hflush, if_pos he]
    · intro he
      rw [poll_error_eq active msec errno hflush, if_neg he]
    · intro p hp
      rw [hm, sync_mem_of_mem hp]
      exact ⟨rfl, rfl⟩

/-- Witness of C11 on the sample state with descriptor 7 narrowed to `IN` and queued: the
interrupted poll returns with no event, and the other failure aborts. -/
theorem wait_failure_handling_witness :
    (∃ st2, iv_dev_poll_poll (announce sample_state [(7, MASKIN)]) [] 0 (.error EINTR) =
      .returned (st2, [])) ∧
    ∃ st1, iv_dev_poll_flush_pending (announce sample_state [(7, MASKIN)]) = .returned st1 ∧
      iv_dev_poll_poll (announce sample_state [(7, MASKIN)]) [] 0 (.error 9) =
        .aborted (.poll_error 9) ∧
      (st1.mem 7).registered_bands = MASKIN :=
  ⟨(wait_failure_handling (announce sample_state [(7, MASKIN)]) [] 0 EINTR).1
      (by decide) rfl,
    _, rfl,
    ((wait_failure_handling (announce sample_state [(7, MASKIN)]) [] 0 9).2 _ rfl).2.1
      (by decide),
    (((wait_failure_handling (announce sample_state [(7, MASKIN)]) [] 0 9).2 _ rfl).2.2.2 7
      (by decide)).1.trans rfl⟩

/-- C12 (register and notify are inert towards the kernel). `iv_dev_poll_register_fd` either
aborts (the descriptor number is already in the registry) or returns, and when it returns
the log of calls to the kernel, the pending answers of the kernel, every record (so its
`registered_bands` and `wanted_bands`) and the pending-change queue are unchanged, the
registry having gained the record. `iv_dev_poll_notify_fd` changes nothing but the
pending-change queue. The record memory that `iv_dev_poll_unregister_fd` and
`iv_dev_poll_poll` leave is the one their flush produced, in which only `registered_bands`
of the queued records has changed. -/
theorem register_notify_inert (st : iv_state) (p : Ptr) :
    (∀ st1, iv_dev_poll_register_fd st p = .returned st1 →
      st1.log = st.log ∧ st1.writes = st.writes ∧ st1.mem = st.mem ∧
      st1.notify = st.notify ∧ st1.fds = st.fds ++ [p] ∧
      st1.numfds = st.numfds ∧ st1.poll_fd = st.poll_fd) ∧
    (iv_dev_poll_register_fd st p = .aborted .register_error ∨
      ∃ st1, iv_dev_poll_register_fd st p = .returned st1) ∧
    (iv_fd_avl_find st (st.mem p).fd = none →
      ∃ st1, iv_dev_poll_register_fd st p = .returned st1) ∧
    iv_dev_poll_notify_fd st p = { st with notify := (iv_dev_poll_notify_fd st p).notify } ∧
    ((iv_dev_poll_notify_fd st p).log = st.log ∧
      (iv_dev_poll_notify_fd st p).writes = st.writes ∧
      (iv_dev_poll_notify_fd st p).mem = st.mem ∧
      (iv_dev_poll_notify_fd st p).fds = st.fds) ∧
    (∀ st', iv_dev_poll_unregister_fd st p = .returned st' →
      st'.mem = sync_mem st.mem st.notify) ∧
    (∀ active msec wait st3 active3,
      iv_dev_poll_poll st active msec wait = .returned (st3, active3) →
      st3.mem = sync_mem st.mem st.notify) ∧
    (∀ q, (sync_mem st.mem st.notify q).wanted_bands = (st.mem q).wanted_bands ∧
      (sync_mem st.mem st.notify q).fd = (st.mem q).fd ∧
      (q ∉ st.notify → sync_mem st.mem st.notify q = st.mem q)) := by
  refine ⟨?_, ?_, ?_, notify_fd_eq st p,
    ⟨notify_fd_log st p, notify_fd_writes st p, notify_fd_mem st p, notify_fd_fds st p⟩,
    ?_, ?_, ?_⟩
  · intro st1 h
    obtain ⟨rfl, _⟩ := register_fd_returned h
    exact ⟨rfl, rfl, rfl, rfl, rfl, rfl, rfl⟩
  · unfold iv_dev_poll_register_fd iv_avl_tree_insert
    cases iv_fd_avl_find st (st.mem p).fd with
    | none => exact Or.inr ⟨_, rfl⟩
    | some q => exact Or.inl rfl
  · intro hnone
    unfold iv_dev_poll_register_fd iv_avl_tree_insert
    rw [hnone]
    exact ⟨_, rfl⟩
  · intro st' h
    unfold iv_dev_poll_unregister_fd at h
    exact (flush_pending_returned h).2.1
  · intro active msec wait st3 active3 h
    obtain ⟨st2, hflush, rfl⟩ := poll_returned h
    exact (flush_pending_returned hflush).2.1
  · intro q
    exact ⟨sync_mem_wanted _ _ _, sync_mem_fd _ _ _, fun hq => sync_mem_of_not_mem hq⟩

/-- Witness of C12: registering descriptor 5 on the sample state without it returns, and
leaves the log, the queue and the records as they were. -/
theorem register_notify_inert_witness :
    ∃ st1, iv_dev_poll_register_fd sample_unregistered 5 = .returned st1 ∧
      st1.log = [] ∧ st1.notify = [] ∧ st1.fds = [7, 9, 5] :=
  let ⟨st1, h⟩ := (register_notify_inert sample_unregistered 5).2.2.1 (by decide)
  have hall := (register_notify_inert sample_unregistered 5).1 st1 h
  ⟨st1, h, hall.1, hall.2.2.2.1, hall.2.2.2.2.1⟩

/-- C13, as stated, fails: in the sample state descriptors 7 and 5 are queued in that order,
both with `wanted_bands` different from `registered_bands`; calling `iv_dev_poll_notify_fd`
on descriptor 7 again leaves the queue as 5, 7. -/
theorem reenqueue_counterexample :
    (announce sample_state [(7, MASKIN), (5, MASKIN)]).notify = [7, 5] ∧
    ((announce sample_state [(7, MASKIN), (5, MASKIN)]).mem 7).wanted_bands ≠
      ((announce sample_state [(7, MASKIN), (5, MASKIN)]).mem 7).registered_bands ∧
    (iv_dev_poll_notify_fd (announce sample_state [(7, MASKIN), (5, MASKIN)]) 7).notify =
      [5, 7] ∧
    (iv_dev_poll_notify_fd (announce sample_state [(7, MASKIN), (5, MASKIN)]) 7).notify ≠
      (announce sample_state [(7, MASKIN), (5, MASKIN)]).notify := by
  decide

/-- C13, amended. In a state whose queue holds no record twice, for a record `p` that is
queued and whose `wanted_bands` differs from its `registered_bands`,
`iv_dev_poll_notify_fd (p)` moves `p` to the tail of the queue: the queue holds the same
records as before, each once, the others in their former order; it is unchanged exactly
when `p` was already the last one; and nothing but the queue changes. -/
theorem reenqueue_moves_to_tail (st : iv_state) (p : Ptr) (hnd : st.notify.Nodup)
    (hq : p ∈ st.notify)
    (hne : (st.mem p).wanted_bands ≠ (st.mem p).registered_bands) :
    (iv_dev_poll_notify_fd st p).notify = st.notify.erase p ++ [p] ∧
    List.Perm (iv_dev_poll_notify_fd st p).notify st.notify ∧
    (iv_dev_poll_notify_fd st p).notify.Nodup ∧
    ((iv_dev_poll_notify_fd st p).notify = st.notify ↔ st.notify.getLast? = some p) ∧
    iv_dev_poll_notify_fd st p = { st with notify := st.notify.erase p ++ [p] } := by
  have hnot : (iv_dev_poll_notify_fd st p).notify = st.notify.erase p ++ [p] := by
    rw [notify_fd_notify, if_pos fun e => hne e.symm]
  refine ⟨hnot, ?_, notify_fd_nodup p hnd, ?_, ?_⟩
  · rw [hnot]
    exact (List.perm_append_singleton p _).trans (List.perm_cons_erase hq).symm
  · rw [hnot]
    constructor
    · intro h
      rw [← h]
      exact List.getLast?_concat _
    · intro h
      obtain ⟨ys, hys⟩ := List.getLast?_eq_some_iff.mp h
      have hp : p ∉ ys := by
        intro hin
        rw [hys] at hnd
        exact (List.nodup_append.mp hnd).2.2 hin (List.mem_singleton_self p)
      rw [hys, List.erase_append_right _ hp]
      simp
  · have h := notify_fd_eq st p
    rw [hnot] at h
    exact h

/-- Witness of C13 (amended) on the sample state with descriptors 7 and 5 queued: the call on
descriptor 7 leaves the queue as 5, 7. -/
theorem reenqueue_moves_to_tail_witness :
    (iv_dev_poll_notify_fd (announce sample_state [(7, MASKIN), (5, MASKIN)]) 7).notify =
      [5, 7] :=
  (reenqueue_moves_to_tail (announce sample_state [(7, MASKIN), (5, MASKIN)]) 7
    (by decide) (by decide) (by decide)).1

/-! ## No stale registration after unregister -/

theorem kernel_replay_append (k : Int) (acc : Option Nat) (es₁ es₂ : List pollfd) :
    kernel_replay k acc (es₁ ++ es₂) = kernel_replay k (kernel_replay k acc es₁) es₂ := by
  unfold kernel_replay
  rw [List.foldl_append]

theorem kernel_replay_filter (k : Int) : ∀ (es : List pollfd) (acc : Option Nat),
    kernel_replay k acc es = kernel_replay k acc (es.filter fun e => decide (e.fd = k)) := by
  intro es
  induction es with
  | nil => intro acc; rfl
  | cons e rest ih =>
    intro acc
    by_cases he : e.fd = k
    · rw [List.filter_cons_of_pos (by simpa using he)]
      unfold kernel_replay at ih ⊢
      rw [List.foldl_cons, List.foldl_cons]
      exact ih _
    · rw [List.filter_cons_of_neg (by simpa using he)]
      unfold kernel_replay at ih ⊢
      rw [List.foldl_cons, if_neg he]
      exact ih _

theorem kernel_registration_append (k : Int) (log calls : List Call) :
    kernel_registration k (log ++ calls) =
      kernel_replay k (kernel_registration k log) (written_for k calls) := by
  unfold kernel_registration written_for
  rw [written_append, kernel_replay_append, ← kernel_replay_filter]

/-- The calls of a flush that returned, and the entries among them for the descriptor number
of a record `p`, when no record is queued twice and no other queued record carries that
number. -/
theorem flush_written_calls {st st' : iv_state} (p : Ptr)
    (h : iv_dev_poll_flush_pending st = .returned st') (hnd : st.notify.Nodup)
    (hne : ∀ x ∈ st.notify, x ≠ p → (st.mem x).fd ≠ (st.mem p).fd) :
    ∃ calls, st'.log = st.log ++ calls ∧
      written_for (st.mem p).fd calls =
        if p ∈ st.notify then fd_entries (st.mem p) else [] := by
  obtain ⟨_, _, _, _, _, calls, hlog, hw, _⟩ := flush_pending_returned h
  refine ⟨calls, hlog, ?_⟩
  unfold written_for
  rw [hw, queue_entries_nodup _ _ hnd, filter_queue_entries st.mem p st.notify hnd hne]

/-- A flush that returns keeps the agreement between a record `p` and the kernel: if the
kernel held no registration for the descriptor number of `p` whenever `registered_bands` was
empty, it holds none whenever `registered_bands` is empty afterwards. -/
theorem flush_keeps_registration {st st' : iv_state} (p : Ptr)
    (h : iv_dev_poll_flush_pending st = .returned st') (hnd : st.notify.Nodup)
    (hne : ∀ x ∈ st.notify, x ≠ p → (st.mem x).fd ≠ (st.mem p).fd)
    (hk : (st.mem p).registered_bands = 0 → kernel_registration (st.mem p).fd st.log = none)
    (hr' : (st'.mem p).registered_bands = 0) :
    kernel_registration (st.mem p).fd st'.log = none := by
  obtain ⟨_, hm, _⟩ := flush_pending_returned h
  obtain ⟨calls, hlog, hcalls⟩ := flush_written_calls p h hnd hne
  rw [hlog, kernel_registration_append, hcalls]
  by_cases hin : p ∈ st.notify
  · rw [if_pos hin]
    rw [hm, sync_mem_of_mem hin, sync_fd_registered] at hr'
    by_cases hr : (st.mem p).registered_bands = 0
    · have hnone : fd_entries (st.mem p) = [] := by
        unfold fd_entries
        rw [hr', hr]
        rfl
      rw [hnone]
      exact hk hr
    · rw [fd_entries_dropped hr hr']
      simp [kernel_replay]
  · rw [if_neg hin]
    rw [hm, sync_mem_of_not_mem hin] at hr'
    exact hk hr'

/-- C14, as stated, fails when the kernel holds a registration that the record does not
know of. In `stale_history` the queue-membership invariant holds and record 5 is registered
with `wanted_bands = 0`, and an earlier batch registered descriptor 5 for `IN`;
`iv_dev_poll_unregister_fd (5)` returns with `registered_bands = 0`, having written no
entry, and the replay of all entries ever written still holds `IN` for descriptor 5. -/
theorem no_stale_registration_counterexample :
    queue_inv stale_history ∧ 5 ∈ stale_history.fds ∧
    (stale_history.mem 5).wanted_bands = 0 ∧
    ∃ st', iv_dev_poll_unregister_fd stale_history 5 = .returned st' ∧
      (st'.mem 5).registered_bands = 0 ∧ st'.log = stale_history.log ∧
      kernel_registration 5 st'.log = some POLLIN :=
  ⟨by decide, by decide, by decide, _, rfl, by decide, by decide, by decide⟩

/-- C14, amended (no stale kernel registration after unregister, given that the kernel holds
no registration the record does not know of). Let `p` be a registered record with
`wanted_bands = 0` in a state where the queue-membership invariant holds, no record is queued
twice and no other queued record carries the descriptor number of `p`. With a cooperative
kernel `iv_dev_poll_unregister_fd (p)` returns; and whenever it returns, `registered_bands` of
`p` is 0, and the entries its flush wrote for the descriptor number of `p` are the removal
entry alone if `registered_bands` was not empty before the call, and none otherwise, so no
add entry. Replaying every entry ever written for that number (a removal clears, an add sets
the interest) leaves no registration if `registered_bands` was not empty before the call, and
otherwise the registration the kernel held before the call; so it leaves none provided the
kernel held none while `registered_bands` was empty. -/
theorem no_stale_registration (st : iv_state) (p : Ptr) (hreg : p ∈ st.fds)
    (hinv : queue_inv st) (hnd : st.notify.Nodup)
    (hne : ∀ x ∈ st.notify, x ≠ p → (st.mem x).fd ≠ (st.mem p).fd)
    (hw : (st.mem p).wanted_bands = 0) :
    (cooperative st.writes st.notify.length = true →
      ∃ st', iv_dev_poll_unregister_fd st p = .returned st') ∧
    ∀ st', iv_dev_poll_unregister_fd st p = .returned st' →
      (st'.mem p).registered_bands = 0 ∧
      (∃ calls, st'.log = st.log ++ calls ∧
        written_for (st.mem p).fd calls =
          if (st.mem p).registered_bands ≠ 0 then [⟨(st.mem p).fd, POLLREMOVE⟩] else []) ∧
      kernel_registration (st.mem p).fd st'.log =
        (if (st.mem p).registered_bands ≠ 0 then none
          else kernel_registration (st.mem p).fd st.log) ∧
      (((st.mem p).registered_bands = 0 → kernel_registration (st.mem p).fd st.log = none) →
        kernel_registration (st.mem p).fd st'.log = none) := by
  refine ⟨fun hco => flush_pending_returns hco, ?_⟩
  intro st' h
  unfold iv_dev_poll_unregister_fd at h
  have hp := hinv p hreg
  rw [hw] at hp
  obtain ⟨_, hm, _⟩ := flush_pending_returned h
  obtain ⟨calls, hlog, hcalls⟩ := flush_written_calls p h hnd hne
  simp only at hm hlog hcalls
  by_cases hr : (st.mem p).registered_bands = 0
  · have hnot : p ∉ st.notify := fun hin => hp.mp hin hr.symm
    rw [if_neg hnot] at hcalls
    have hsame : kernel_registration (st.mem p).fd st'.log =
        kernel_registration (st.mem p).fd st.log := by
      rw [hlog, kernel_registration_append, hcalls]
      rfl
    refine ⟨?_, ⟨calls, hlog, ?_⟩, ?_, ?_⟩
    · rw [hm, sync_mem_of_not_mem hnot, hr]
    · rw [hcalls, if_neg (not_not.mpr hr)]
    · rw [hsame, if_neg (not_not.mpr hr)]
    · intro hk
      rw [hsame]
      exact hk hr
  · have hin : p ∈ st.notify := hp.mpr fun e => hr e.symm
    rw [if_pos hin, fd_entries_dropped hr hw] at hcalls
    have hnone : kernel_registration (st.mem p).fd st'.log = none := by
      rw [hlog, kernel_registration_append, hcalls]
      simp [kernel_replay]
    refine ⟨?_, ⟨calls, hlog, ?_⟩, ?_, ?_⟩
    · rw [hm, sync_mem_of_mem hin, sync_fd_registered, hw]
    · rw [hcalls, if_pos hr]
    · rw [hnone, if_pos hr]
    · intro _
      exact hnone

/-- Witness of C14 (amended) on the sample state with its history: descriptor 9, registered
with the kernel for `IN`, drops to empty and is unregistered; the call returns with
`registered_bands = 0`, and the replay of the log leaves no registration for descriptor 9. -/
theorem no_stale_registration_witness :
    kernel_registration 9 (announce sample_history [(9, 0)]).log = some POLLIN ∧
    ∃ st', iv_dev_poll_unregister_fd (announce sample_history [(9, 0)]) 9 = .returned st' ∧
      (st'.mem 9).registered_bands = 0 ∧ kernel_registration 9 st'.log = none :=
  have thm := no_stale_registration (announce sample_history [(9, 0)]) 9 (by decide)
    (by decide) (by decide) (by decide) (by decide)
  ⟨by decide,
    let ⟨st', h⟩ := thm.1 (by decide)
    ⟨st', h, (thm.2 st' h).1, (thm.2 st' h).2.2.1⟩⟩

/-! ## Batching -/

theorem flush_unbounded_eq : ∀ (q : List Ptr) (mem : Ptr → iv_fd_) (buf : List pollfd),
    flush_unbounded q mem buf = (sync_mem mem q, buf ++ queue_entries mem q) := by
  intro q
  induction q with
  | nil =>
    intro mem buf
    simp [flush_unbounded, queue_entries, sync_mem_nil]
  | cons p rest ih =>
    intro mem buf
    unfold flush_unbounded queue_entries
    rw [ih, sync_mem_cons, List.append_assoc]

theorem flatten_queue_entry_lists : ∀ (q : List Ptr) (mem : Ptr → iv_fd_),
    (queue_entry_lists mem q).flatten = queue_entries mem q := by
  intro q
  induction q with
  | nil => intro mem; rfl
  | cons p rest ih =>
    intro mem
    unfold queue_entry_lists queue_entries
    rw [List.flatten_cons, ih]

theorem mem_queue_entries : ∀ (q : List Ptr) (mem : Ptr → iv_fd_) (e : pollfd),
    e ∈ queue_entries mem q → ∃ p ∈ q, e.fd = (mem p).fd := by
  intro q
  induction q with
  | nil => intro mem e he; cases he
  | cons p rest ih =>
    intro mem e he
    unfold queue_entries at he
    rcases List.mem_append.mp he with h | h
    · exact ⟨p, List.mem_cons_self _ _, fd_entries_fd _ e h⟩
    · obtain ⟨x, hx, hfd⟩ := ih _ e h
      refine ⟨x, List.mem_cons_of_mem _ hx, ?_⟩
      rw [hfd]
      by_cases hxp : x = p
      · subst hxp
        simp
      · rw [Function.update_noteq hxp]

/-- C15 (batching is transparent and FIFO). For every queue, of any length: with a
cooperative kernel the flush returns; and whenever it returns, the log has grown by writes
on the handle whose batches, concatenated in write order, are the buffer of the unbounded
single-buffer flush, that is the entries owed for the queued records front to back; when
no record is queued twice this is `entries (d1) ++ ... ++ entries (dn)` with the entries of
each record as they are when the flush starts; every entry written names the descriptor of a
queued record, and the records are left as the unbounded flush leaves them. -/
theorem batching_transparent (st : iv_state) :
    (cooperative st.writes st.notify.length = true →
      ∃ st', iv_dev_poll_flush_pending st = .returned st') ∧
    ∀ st', iv_dev_poll_flush_pending st = .returned st' →
      ∃ calls, st'.log = st.log ++ calls ∧
        (∀ c ∈ calls, ∃ b, c = Call.xwrite st.poll_fd b) ∧
        written calls = (flush_unbounded st.notify st.mem []).2 ∧
        st'.mem = (flush_unbounded st.notify st.mem []).1 ∧
        (st.notify.Nodup →
          written calls = st.notify.flatMap fun p => fd_entries (st.mem p)) ∧
        (∀ e ∈ written calls, ∃ p ∈ st.notify, e.fd = (st.mem p).fd) := by
  refine ⟨flush_pending_returns, ?_⟩
  intro st' h
  obtain ⟨_, hm, _, _, _, calls, hlog, hw, hcalls⟩ := flush_pending_returned h
  refine ⟨calls, hlog, ?_, ?_, ?_, ?_, ?_⟩
  · intro c hc
    obtain ⟨b, hb, _⟩ := hcalls c hc
    exact ⟨b, hb⟩
  · rw [flush_unbounded_eq, hw, List.nil_append]
  · rw [flush_unbounded_eq, hm]
  · intro hnd
    rw [hw, queue_entries_nodup _ _ hnd]
  · intro e he
    rw [hw] at he
    exact mem_queue_entries _ _ e he

theorem cooperative_replicate (n m : Nat) (hn : n < m) :
    cooperative (List.replicate m (.accepts (UPLOAD_BATCH * sizeof_pollfd))) n = true := by
  rw [cooperative_iff]
  refine ⟨?_, by simpa using hn⟩
  intro w hw
  rw [List.mem_replicate] at hw
  exact ⟨_, hw.2, Nat.le_refl _⟩

theorem long_queue_notify : long_queue_state.notify = List.range 600 := by
  simp only [long_queue_state]

theorem long_queue_nodup : long_queue_state.notify.Nodup := by
  rw [long_queue_notify]
  exact List.nodup_range 600

theorem long_queue_cooperative :
    cooperative long_queue_state.writes long_queue_state.notify.length = true := by
  have hw : long_queue_state.writes = List.replicate 601 (.accepts 8192) := rfl
  rw [long_queue_notify, List.length_range, hw]
  exact cooperative_replicate 600 601 (by decide)

theorem long_queue_entries :
    (long_queue_state.notify.flatMap fun p => fd_entries (long_queue_state.mem p)) =
      (List.range 600).flatMap fun p => [⟨(p : Int), POLLREMOVE⟩, ⟨(p : Int), POLLIN⟩] := by
  rw [long_queue_notify]
  congr 1
  funext p
  have hm : long_queue_state.mem p = ⟨(p : Int), MASKIN, MASKIN ||| MASKOUT⟩ := rfl
  have h := @fd_entries_narrowed ⟨(p : Int), MASKIN, MASKIN ||| MASKOUT⟩
    ⟨1, (by decide : Nat.testBit (MASKIN ||| MASKOUT) 1 = true),
      (by decide : Nat.testBit MASKIN 1 = false)⟩ (by decide : MASKIN ≠ 0)
  rw [hm, h]
  show [_, (⟨(p : Int), bits_to_poll_mask MASKIN⟩ : pollfd)] = _
  rw [bits_to_poll_mask_MASKIN]

/-- Witness of C15 on the long queue: 600 records that each owe a removal and an add, more
than a buffer holds; the flush returns and the batches carry the 1200 entries in queue
order. -/
theorem batching_transparent_witness :
    ∃ st' calls, iv_dev_poll_flush_pending long_queue_state = .returned st' ∧
      st'.log = calls ∧
      written calls =
        (List.range 600).flatMap fun p => [⟨(p : Int), POLLREMOVE⟩, ⟨(p : Int), POLLIN⟩] :=
  let ⟨st', h⟩ := (batching_transparent long_queue_state).1 long_queue_cooperative
  let ⟨calls, hlog, _, _, _, hflat, _⟩ := (batching_transparent long_queue_state).2 st' h
  ⟨st', calls, h, hlog.trans (List.nil_append calls),
    (hflat long_queue_nodup).trans long_queue_entries⟩

/-! ## The bound of the batch buffer -/

theorem Outcome.bind_ne_overrun {σ τ : Type} {o : Outcome σ} {f : σ → Outcome τ}
    (ho : o ≠ .overrun) (hf : ∀ s, o = .returned s → f s ≠ .overrun) :
    o.bind f ≠ .overrun := by
  cases o with
  | returned s => exact hf s rfl
  | aborted why => simp
  | blocked => simp
  | overrun => exact absurd rfl ho

theorem xwrite_ne_overrun : ∀ (script : List write_result) (errno off count : Nat)
    (calls : List write_call), xwrite errno off count calls script ≠ .overrun := by
  intro script
  induction script with
  | nil =>
    intro errno off count calls
    unfold xwrite
    split <;> simp
  | cons a rest ih =>
    intro errno off count calls
    unfold xwrite
    split
    · simp
    · cases a with
      | accepts room =>
        simp only
        split
        · split
          · exact ih _ _ _ _
          · simp
        · exact ih _ _ _ _
      | fails e =>
        simp only
        split
        · exact ih _ _ _ _
        · simp

theorem upload_ne_overrun (st : iv_state) (pfd : List pollfd) : upload st pfd ≠ .overrun := by
  unfold upload
  exact Outcome.bind_ne_overrun (xwrite_ne_overrun _ _ _ _ _) (fun _ _ => by simp)

theorem flush_room_ne_overrun (st : iv_state) (pfd : List pollfd) :
    flush_room st pfd ≠ .overrun := by
  unfold flush_room
  split
  · exact Outcome.bind_ne_overrun (upload_ne_overrun _ _) (fun _ _ => by simp)
  · simp

theorem flush_step_ne_overrun (p : Ptr) (rest : List Ptr) (st : iv_state)
    {pfd : List pollfd} (hlen : pfd.length ≤ UPLOAD_BATCH) :
    flush_step p rest st pfd ≠ .overrun := by
  unfold flush_step
  apply Outcome.bind_ne_overrun (flush_room_ne_overrun _ _)
  intro r1 hr1
  obtain ⟨_, _, hr2, _⟩ := flush_room_returned hr1 hlen
  obtain ⟨pfd3, h3⟩ := flush_stores_returns (r1.1.mem p) hr2
  simp only
  rw [h3]
  simp

theorem flush_loop_ne_overrun : ∀ (q : List Ptr) (st : iv_state) (pfd : List pollfd),
    pfd.length ≤ UPLOAD_BATCH → flush_loop q st pfd ≠ .overrun := by
  intro q
  induction q with
  | nil =>
    intro st pfd _
    unfold flush_loop
    split
    · exact upload_ne_overrun _ _
    · simp
  | cons p rest ih =>
    intro st pfd hlen
    unfold flush_loop
    apply Outcome.bind_ne_overrun (flush_step_ne_overrun p rest st hlen)
    intro r hr
    exact ih r.1 r.2 (flush_step_returned hr hlen).2.2.1

/-- One iteration of the flush, exactly: either the buffer was nearly full, it was handed to
the kernel and the entries of the record start a new buffer, or no call was made and the
entries of the record were appended. -/
theorem flush_step_returned_exact {p : Ptr} {rest : List Ptr} {st : iv_state}
    {pfd : List pollfd} {r : iv_state × List pollfd}
    (h : flush_step p rest st pfd = .returned r) :
    r.1.poll_fd = st.poll_fd ∧
      ((pfd.length > UPLOAD_BATCH - 2 ∧
          r.1.log = st.log ++ [Call.xwrite st.poll_fd pfd] ∧ r.2 = fd_entries (st.mem p)) ∨
        (¬ pfd.length > UPLOAD_BATCH - 2 ∧
          r.1.log = st.log ∧ r.2 = pfd ++ fd_entries (st.mem p))) := by
  unfold flush_step at h
  obtain ⟨r1, hroom, h1⟩ := Outcome.bind_eq_returned h
  obtain ⟨pfd3, hst, h2⟩ := Outcome.bind_eq_returned h1
  have h3 := flush_stores_returned hst
  cases Outcome.returned.inj h2
  unfold flush_room at hroom
  split at hroom
  · rename_i hbig
    obtain ⟨st1, hup, hr⟩ := Outcome.bind_eq_returned hroom
    obtain ⟨ws, rfl⟩ := upload_returned hup
    cases Outcome.returned.inj hr
    exact ⟨rfl, Or.inl ⟨hbig, rfl, by rw [h3]; rfl⟩⟩
  · rename_i hsmall
    cases Outcome.returned.inj hroom
    exact ⟨rfl, Or.inr ⟨hsmall, rfl, h3⟩⟩

theorem filter_nonempty_cons (es : List pollfd) (l : List (List pollfd)) :
    (es :: l).filter (fun x => !x.isEmpty) =
      (if es = [] then [] else [es]) ++ l.filter (fun x => !x.isEmpty) := by
  cases es with
  | nil => simp
  | cons a b => simp

theorem flatten_pending (es : List pollfd) :
    (if es = [] then ([] : List (List pollfd)) else [es]).flatten = es := by
  split
  · rename_i h
    rw [h]
    rfl
  · simp

theorem pending_nonempty (es : List pollfd) :
    ∀ x ∈ (if es = [] then ([] : List (List pollfd)) else [es]), x ≠ [] := by
  intro x hx
  split at hx
  · cases hx
  · rw [List.mem_singleton] at hx
    rw [hx]
    assumption

theorem eq_nil_of_flatten_eq_nil {pend : List (List pollfd)} (hne : ∀ x ∈ pend, x ≠ [])
    (h : pend.flatten = []) : pend = [] := by
  cases pend with
  | nil => rfl
  | cons a l =>
    rw [List.flatten_cons] at h
    exact absurd (List.append_eq_nil.mp h).1 (hne a (List.mem_cons_self _ _))

/-- The calls of a flush that returned cut the sequence of the per-record entry lists at
record boundaries: each call carries the concatenation of whole entry lists (`pend` being
those already in the buffer), is not empty and fits the buffer. -/
theorem flush_loop_chunks : ∀ (q : List Ptr) (st : iv_state) (pfd : List pollfd)
    (st' : iv_state), flush_loop q st pfd = .returned st' → pfd.length ≤ UPLOAD_BATCH →
    ∀ pend : List (List pollfd), pend.flatten = pfd → (∀ x ∈ pend, x ≠ []) →
    ∃ chunks : List (List (List pollfd)),
      chunks.flatten = pend ++ (queue_entry_lists st.mem q).filter (fun x => !x.isEmpty) ∧
      st'.log = st.log ++ chunks.map (fun ch => Call.xwrite st.poll_fd ch.flatten) ∧
      ∀ ch ∈ chunks, ch.flatten ≠ [] ∧ ch.flatten.length ≤ UPLOAD_BATCH := by
  intro q
  induction q with
  | nil =>
    intro st pfd st' h hlen pend hpend hne
    unfold flush_loop at h
    split at h
    · rename_i hpfd
      obtain ⟨ws, rfl⟩ := upload_returned h
      refine ⟨[pend], by simp [queue_entry_lists], by simp [hpend], ?_⟩
      intro ch hch
      rw [List.mem_singleton] at hch
      rw [hch, hpend]
      refine ⟨?_, hlen⟩
      intro h0
      rw [h0] at hpfd
      simp at hpfd
    · rename_i hpfd
      cases Outcome.returned.inj h
      have h0 : pfd = [] := by
        cases pfd with
        | nil => rfl
        | cons a l => simp at hpfd
      rw [h0] at hpend
      rw [eq_nil_of_flatten_eq_nil hne hpend]
      exact ⟨[], by simp [queue_entry_lists], by simp, by simp⟩
  | cons p rest ih =>
    intro st pfd st' h hlen pend hpend hne
    unfold flush_loop at h
    obtain ⟨r, hstep, hrest⟩ := Outcome.bind_eq_returned h
    obtain ⟨_, hm, hr2, _⟩ := flush_step_returned hstep hlen
    obtain ⟨hfd, hcase⟩ := flush_step_returned_exact hstep
    unfold queue_entry_lists
    rw [filter_nonempty_cons, ← hm]
    rcases hcase with ⟨hbig, hlog, hbuf⟩ | ⟨_, hlog, hbuf⟩
    · obtain ⟨chunks, hflat, hlog', hbound⟩ := ih r.1 r.2 st' hrest hr2
        (if fd_entries (st.mem p) = [] then [] else [fd_entries (st.mem p)])
        (by rw [flatten_pending, hbuf]) (pending_nonempty _)
      refine ⟨pend :: chunks, ?_, ?_, ?_⟩
      · rw [List.flatten_cons, hflat]
      · rw [hlog', hlog, hfd, List.map_cons, hpend, List.append_assoc]
        rfl
      · intro ch hch
        rcases List.mem_cons.mp hch with rfl | hch
        · rw [hpend]
          refine ⟨?_, hlen⟩
          intro h0
          rw [h0] at hbig
          simp at hbig
        · exact hbound ch hch
    · obtain ⟨chunks, hflat, hlog', hbound⟩ := ih r.1 r.2 st' hrest hr2
        (pend ++ if fd_entries (st.mem p) = [] then [] else [fd_entries (st.mem p)])
        (by rw [List.flatten_append, flatten_pending, hpend, hbuf])
        (fun x hx => (List.mem_append.mp hx).elim (hne x) (pending_nonempty _ x))
      refine ⟨chunks, ?_, ?_, hbound⟩
      · rw [hflat, List.append_assoc]
      · rw [hlog', hlog, hfd]

theorem queue_entry_lists_congr : ∀ (q : List Ptr) (mem mem' : Ptr → iv_fd_),
    (∀ x ∈ q, mem' x = mem x) → queue_entry_lists mem' q = queue_entry_lists mem q := by
  intro q
  induction q with
  | nil => intro mem mem' _; rfl
  | cons p rest ih =>
    intro mem mem' h
    unfold queue_entry_lists
    rw [h p (List.mem_cons_self _ _)]
    congr 1
    apply ih
    intro x hx
    by_cases hxp : x = p
    · subst hxp
      simp
    · rw [Function.update_noteq hxp, Function.update_noteq hxp]
      exact h x (List.mem_cons_of_mem _ hx)

theorem queue_entry_lists_nodup : ∀ (q : List Ptr) (mem : Ptr → iv_fd_), q.Nodup →
    queue_entry_lists mem q = q.map fun p => fd_entries (mem p) := by
  intro q
  induction q with
  | nil => intro mem _; rfl
  | cons p rest ih =>
    intro mem hnd
    rw [List.nodup_cons] at hnd
    unfold queue_entry_lists
    rw [List.map_cons, ← ih mem hnd.2]
    congr 1
    apply queue_entry_lists_congr
    intro x hx
    have hxp : x ≠ p := fun e => hnd.1 (e ▸ hx)
    exact Function.update_noteq hxp _ _

theorem chunks_eq_nil {chunks : List (List (List pollfd))}
    (hne : ∀ ch ∈ chunks, ch.flatten ≠ [] ∧ ch.flatten.length ≤ UPLOAD_BATCH)
    (h : chunks.flatten = []) : chunks = [] := by
  cases chunks with
  | nil => rfl
  | cons ch rest =>
    rw [List.flatten_cons] at h
    have hch : ch = [] := (List.append_eq_nil.mp h).1
    have := (hne ch (List.mem_cons_self _ _)).1
    rw [hch] at this
    exact absurd rfl this

theorem pfd_store_overrun_iff (pfd : List pollfd) (e : pollfd) :
    pfd_store pfd e = .overrun ↔ UPLOAD_BATCH ≤ pfd.length := by
  unfold pfd_store
  split
  · rename_i h
    constructor
    · intro h'; cases h'
    · intro h'; omega
  · rename_i h
    exact ⟨fun _ => by omega, fun _ => rfl⟩

/-- C16 (batch buffer bound). A store into the batch buffer at the index `num` ends in
`overrun` exactly when `num` is not below `UPLOAD_BATCH`, and the flush never ends so,
whatever the queue and the kernel: every store is at an index strictly below `UPLOAD_BATCH`.
With a cooperative kernel the flush returns; and whenever it returns, the calls it made are
writes on the handle that cut the sequence of the non-empty per-record entry lists at record
boundaries: every write carries the concatenation of whole entry lists, so the removal entry
and the add entry of one record go in the same write; every write carries between 1 and
`UPLOAD_BATCH` entries; and no write is made when no entry is owed. -/
theorem batch_buffer_bound (st : iv_state) :
    (∀ pfd e, pfd_store pfd e = .overrun ↔ UPLOAD_BATCH ≤ pfd.length) ∧
    iv_dev_poll_flush_pending st ≠ .overrun ∧
    (cooperative st.writes st.notify.length = true →
      ∃ st', iv_dev_poll_flush_pending st = .returned st') ∧
    ∀ st', iv_dev_poll_flush_pending st = .returned st' →
      ∃ chunks : List (List (List pollfd)),
        chunks.flatten =
          (queue_entry_lists st.mem st.notify).filter (fun es => !es.isEmpty) ∧
        st'.log = st.log ++ chunks.map (fun ch => Call.xwrite st.poll_fd ch.flatten) ∧
        (∀ ch ∈ chunks, 1 ≤ ch.flatten.length ∧ ch.flatten.length ≤ UPLOAD_BATCH) ∧
        (queue_entries st.mem st.notify = [] → st'.log = st.log) ∧
        (st.notify.Nodup →
          queue_entry_lists st.mem st.notify = st.notify.map fun p => fd_entries (st.mem p)) := by
  refine ⟨pfd_store_overrun_iff, flush_loop_ne_overrun _ _ _ (by simp),
    flush_pending_returns, ?_⟩
  intro st' h
  unfold iv_dev_poll_flush_pending at h
  obtain ⟨chunks, hflat, hlog, hbound⟩ :=
    flush_loop_chunks _ _ _ _ h (by simp) [] rfl (by simp)
  rw [List.nil_append] at hflat
  refine ⟨chunks, hflat, hlog, ?_, ?_, queue_entry_lists_nodup _ _⟩
  · intro ch hch
    obtain ⟨hne, hle⟩ := hbound ch hch
    exact ⟨List.length_pos.mpr hne, hle⟩
  · intro hnone
    have hall : ∀ es ∈ queue_entry_lists st.mem st.notify, es = [] := by
      rw [← flatten_queue_entry_lists] at hnone
      exact List.flatten_eq_nil_iff.mp hnone
    have hfil : (queue_entry_lists st.mem st.notify).filter (fun es => !es.isEmpty) = [] := by
      rw [List.filter_eq_nil_iff]
      intro es hes
      rw [hall es hes]
      simp
    rw [hfil] at hflat
    rw [hlog, chunks_eq_nil hbound hflat]
    simp

/-- Witness of C16 on the long queue, whose 1200 entries do not fit one buffer: the flush
does not overrun the buffer, and it returns. -/
theorem batch_buffer_bound_witness :
    iv_dev_poll_flush_pending long_queue_state ≠ .overrun ∧
      ∃ st', iv_dev_poll_flush_pending long_queue_state = .returned st' :=
  ⟨(batch_buffer_bound long_queue_state).2.1,
    (batch_buffer_bound long_queue_state).2.2.1 long_queue_cooperative⟩

/-! ## Coalescing -/

theorem announce_nodup : ∀ (cs : List (Ptr × Nat)) (st : iv_state),
    st.notify.Nodup → (announce st cs).notify.Nodup := by
  intro cs
  induction cs with
  | nil => intro st h; exact h
  | cons c cs ih =>
    intro st h
    rw [announce_cons]
    exact ih _ (notify_fd_nodup c.1 h)

theorem announce_log : ∀ (cs : List (Ptr × Nat)) (st : iv_state),
    (announce st cs).log = st.log := by
  intro cs
  induction cs with
  | nil => intro st; rfl
  | cons c cs ih =>
    intro st
    rw [announce_cons, ih, notify_fd_log]
    rfl

theorem set_wanted_bands_mem_fd (st : iv_state) (p x : Ptr) (bands : Nat) :
    ((set_wanted_bands st p bands).mem x).fd = (st.mem x).fd ∧
      ((set_wanted_bands st p bands).mem x).registered_bands =
        (st.mem x).registered_bands := by
  by_cases hx : x = p
  · subst hx
    rw [set_wanted_bands_mem_self]
    exact ⟨rfl, rfl⟩
  · rw [set_wanted_bands_mem_of_ne _ hx]
    exact ⟨rfl, rfl⟩

/-- Announcements change neither the descriptor number nor `registered_bands` of any
record. -/
theorem announce_mem_fd : ∀ (cs : List (Ptr × Nat)) (st : iv_state) (x : Ptr),
    ((announce st cs).mem x).fd = (st.mem x).fd ∧
      ((announce st cs).mem x).registered_bands = (st.mem x).registered_bands := by
  intro cs
  induction cs with
  | nil => intro st x; exact ⟨rfl, rfl⟩
  | cons c cs ih =>
    intro st x
    rw [announce_cons]
    obtain ⟨h1, h2⟩ := ih (iv_dev_poll_notify_fd (set_wanted_bands st c.1 c.2) c.1) x
    rw [notify_fd_mem] at h1 h2
    obtain ⟨h3, h4⟩ := set_wanted_bands_mem_fd st c.1 x c.2
    exact ⟨h1.trans h3, h2.trans h4⟩

theorem mem_announce_of_not_mem : ∀ (cs : List (Ptr × Nat)) (st : iv_state) (x : Ptr),
    x ∉ cs.map Prod.fst → (x ∈ (announce st cs).notify ↔ x ∈ st.notify) := by
  intro cs
  induction cs with
  | nil => intro st x _; rfl
  | cons c cs ih =>
    intro st x hx
    rw [List.map_cons, List.mem_cons, not_or] at hx
    rw [announce_cons, ih _ x hx.2, mem_notify_fd_of_ne hx.1]
    rfl

/-- C17 (coalescing and no-op collapse). Take a state whose queue holds no record twice and
any sequence of announced interest changes in which the last change of the record `p` sets
`bands`, no other queued record carrying the descriptor number of `p`. After the sequence,
`p` is queued iff `bands` differs from its `registered_bands`, and its record holds `bands`
as `wanted_bands` with the descriptor number and `registered_bands` it had. With a
cooperative kernel the next flush returns; and whenever it returns, the entries it wrote
for the descriptor of `p` are none if `bands` equals `registered_bands`, and otherwise the
entries owed for `registered_bands` and `bands`: the earlier values of the sequence do not
occur in them. -/
theorem coalescing (st : iv_state) (pre post : List (Ptr × Nat)) (p : Ptr) (bands : Nat)
    (hnd : st.notify.Nodup) (hpost : p ∉ post.map Prod.fst)
    (hne : ∀ x ∈ (announce st (pre ++ (p, bands) :: post)).notify, x ≠ p →
      (st.mem x).fd ≠ (st.mem p).fd) :
    (p ∈ (announce st (pre ++ (p, bands) :: post)).notify ↔
      bands ≠ (st.mem p).registered_bands) ∧
    (announce st (pre ++ (p, bands) :: post)).mem p =
      ⟨(st.mem p).fd, bands, (st.mem p).registered_bands⟩ ∧
    (cooperative st.writes (announce st (pre ++ (p, bands) :: post)).notify.length = true →
      ∃ st', iv_dev_poll_flush_pending (announce st (pre ++ (p, bands) :: post)) =
        .returned st') ∧
    ∀ st', iv_dev_poll_flush_pending (announce st (pre ++ (p, bands) :: post)) =
        .returned st' →
      ∃ calls, st'.log = st.log ++ calls ∧
        written_for (st.mem p).fd calls =
          if bands = (st.mem p).registered_bands then []
          else fd_entries ⟨(st.mem p).fd, bands, (st.mem p).registered_bands⟩ := by
  have hT := announce_nodup pre st hnd
  have hTfd := announce_mem_fd pre st p
  have hmem : (announce st (pre ++ (p, bands) :: post)).mem p =
      ⟨(st.mem p).fd, bands, (st.mem p).registered_bands⟩ := by
    rw [announce_append, announce_cons, announce_mem_of_not_mem _ _ _ hpost, notify_fd_mem,
      set_wanted_bands_mem_self, ← hTfd.1, ← hTfd.2]
  have hin : p ∈ (announce st (pre ++ (p, bands) :: post)).notify ↔
      bands ≠ (st.mem p).registered_bands := by
    rw [announce_append, announce_cons, mem_announce_of_not_mem _ _ _ hpost]
    have hT' : (set_wanted_bands (announce st pre) p bands).notify.Nodup := hT
    rw [mem_notify_fd_self p hT', set_wanted_bands_mem_self, ← hTfd.2]
  refine ⟨hin, hmem, ?_, ?_⟩
  · intro hco
    apply flush_pending_returns
    rw [announce_writes]
    exact hco
  · intro st' h
    have hndS := announce_nodup (pre ++ (p, bands) :: post) st hnd
    have hneS : ∀ x ∈ (announce st (pre ++ (p, bands) :: post)).notify, x ≠ p →
        ((announce st (pre ++ (p, bands) :: post)).mem x).fd ≠
          ((announce st (pre ++ (p, bands) :: post)).mem p).fd := by
      intro x hx hxp
      rw [(announce_mem_fd _ st x).1, (announce_mem_fd _ st p).1]
      exact hne x hx hxp
    obtain ⟨calls, hlog, hw⟩ := flush_written_calls p h hndS hneS
    rw [announce_log] at hlog
    rw [hmem] at hw
    refine ⟨calls, hlog, ?_⟩
    rw [hw]
    by_cases hb : bands = (st.mem p).registered_bands
    · rw [if_neg (fun hp => hin.mp hp hb), if_pos hb]
    · rw [if_pos (hin.mpr hb), if_neg hb]

/-- Witness of C17 on the sample state: descriptor 7, registered for `IN|OUT`, is set to
`IN`, to 0 and back to `IN|OUT`; it is not queued, and the flush writes nothing for it. -/
theorem coalescing_witness :
    7 ∉ (announce sample_state [(7, MASKIN), (7, 0), (7, MASKIN ||| MASKOUT)]).notify ∧
    ∃ st' calls,
      iv_dev_poll_flush_pending
        (announce sample_state [(7, MASKIN), (7, 0), (7, MASKIN ||| MASKOUT)]) =
          .returned st' ∧
      st'.log = calls ∧ written_for 7 calls = [] :=
  have thm := coalescing sample_state [(7, MASKIN), (7, 0)] [] 7 (MASKIN ||| MASKOUT)
    (by decide) (by decide) (by decide)
  ⟨fun hin => thm.1.mp hin rfl,
    let ⟨st', h⟩ := thm.2.2.1 (by decide)
    let ⟨calls, hlog, hw⟩ := thm.2.2.2 st' h
    ⟨st', calls, h, hlog.trans (List.nil_append calls), hw⟩⟩

/-! ## Draining short writes -/

theorem accepted_append {α : Type} (buf : List α) (a b : List write_call) :
    accepted buf (a ++ b) = accepted buf a ++ accepted buf b := by
  simp [accepted]

theorem xwrite_eintr (errno off count : Nat) (calls : List write_call)
    (rest : List write_result) (hpos : 0 < count) :
    xwrite errno off count calls (.fails EINTR :: rest) =
      xwrite EINTR off count (calls ++ [⟨off, count, -1⟩]) rest := by
  rw [xwrite, if_neg (by omega)]
  simp

theorem xwrite_fails (errno off count : Nat) (calls : List write_call)
    (rest : List write_result) (e : Nat) (hpos : 0 < count) (he : e ≠ EINTR) :
    xwrite errno off count calls (.fails e :: rest) = .aborted (.xwrite_error e) := by
  rw [xwrite, if_neg (by omega)]
  simp [he]

/-- A `write` on at most `INT_MAX` bytes offered: `ret` is the count the kernel took, and
`xwrite` advances by it. -/
theorem xwrite_accepts_step (errno off count room : Nat) (calls : List write_call)
    (rest : List write_result) (hpos : 0 < count) (hmax : count ≤ INT_MAX) :
    xwrite errno off count calls (.accepts room :: rest) =
      xwrite errno (off + min room count) (count - min room count)
        (calls ++ [⟨off, count, (min room count : Nat)⟩]) rest := by
  have hmin : min room count ≤ count := Nat.min_le_right _ _
  have hint : to_int (min room count) = ((min room count : Nat) : Int) :=
    to_int_of_le (by omega)
  rw [xwrite, if_neg (by omega)]
  simp only [hint]
  rw [if_neg (by omega), Int.toNat_ofNat]

/-- For at most `INT_MAX` bytes the value that `errno` has when `xwrite` is entered is never
read. -/
theorem xwrite_entry_errno : ∀ (script : List write_result) (e₁ e₂ off count : Nat)
    (calls : List write_call), count ≤ INT_MAX →
    xwrite e₁ off count calls script = xwrite e₂ off count calls script := by
  intro script
  induction script with
  | nil =>
    intro e₁ e₂ off count calls _
    unfold xwrite
    rfl
  | cons a script ih =>
    intro e₁ e₂ off count calls hmax
    by_cases h0 : count = 0
    · subst h0
      rw [xwrite_zero, xwrite_zero]
    · have hpos : 0 < count := Nat.pos_of_ne_zero h0
      cases a with
      | fails e =>
        by_cases he : e = EINTR
        · subst he
          rw [xwrite_eintr _ _ _ _ _ hpos, xwrite_eintr _ _ _ _ _ hpos]
        · rw [xwrite_fails _ _ _ _ _ _ hpos he, xwrite_fails _ _ _ _ _ _ hpos he]
      | accepts room =>
        rw [xwrite_accepts_step _ _ _ _ _ _ hpos hmax,
          xwrite_accepts_step _ _ _ _ _ _ hpos hmax]
        exact ih _ _ _ _ _ (by omega)

/-- What holds when `xwrite` returns from at most `INT_MAX` bytes: every call it added
offered the whole remaining range of the buffer, one scripted answer was used per call, and
the accepted bytes are those accepted before followed by the rest of the buffer. -/
theorem xwrite_returned_spec {α : Type} (buf : List α) (hmax : buf.length ≤ INT_MAX) :
    ∀ (script : List write_result) (errno off count : Nat) (calls calls' : List write_call)
    (rest : List write_result),
    xwrite errno off count calls script = .returned (calls', rest) →
    off + count = buf.length →
    accepted buf calls' = accepted buf calls ++ buf.drop off ∧
      ∃ new, calls' = calls ++ new ∧
        (∀ c ∈ new, c.off + c.count = buf.length ∧ 0 < c.count) ∧
        ∃ used, script = used ++ rest ∧ used.length = new.length := by
  intro script
  induction script with
  | nil =>
    intro errno off count calls calls' rest h hlen
    unfold xwrite at h
    split at h
    · rename_i h0
      cases Outcome.returned.inj h
      have hoff : off = buf.length := by omega
      refine ⟨by rw [hoff]; simp, [], by simp, by simp, [], rfl, rfl⟩
    · cases h
  | cons a script ih =>
    intro errno off count calls calls' rest h hlen
    by_cases h0 : count = 0
    · subst h0
      rw [xwrite_zero] at h
      cases Outcome.returned.inj h
      have hoff : off = buf.length := by omega
      refine ⟨by rw [hoff]; simp, [], by simp, by simp, [], rfl, rfl⟩
    · have hpos : 0 < count := Nat.pos_of_ne_zero h0
      cases a with
      | fails e =>
        by_cases he : e = EINTR
        · subst he
          rw [xwrite_eintr _ _ _ _ _ hpos] at h
          obtain ⟨hacc, new, hnew, hall, used, hused, hlenu⟩ := ih _ _ _ _ _ _ h hlen
          refine ⟨?_, ⟨off, count, -1⟩ :: new, ?_, ?_, .fails EINTR :: used, ?_, ?_⟩
          · rw [hacc, accepted_append]
            simp [accepted]
          · rw [hnew, List.append_assoc]
            rfl
          · intro c hc
            rcases List.mem_cons.mp hc with rfl | hc
            · exact ⟨hlen, hpos⟩
            · exact hall c hc
          · rw [hused]
            rfl
          · simp [hlenu]
        · rw [xwrite_fails _ _ _ _ _ _ hpos he] at h
          cases h
      | accepts room =>
        have hmin : min room count ≤ count := Nat.min_le_right _ _
        rw [xwrite_accepts_step _ _ _ _ _ _ hpos (by omega)] at h
        obtain ⟨hacc, new, hnew, hall, used, hused, hlenu⟩ :=
          ih _ _ _ _ _ _ h (by omega)
        refine ⟨?_, ⟨off, count, (min room count : Nat)⟩ :: new, ?_, ?_,
          .accepts room :: used, ?_, ?_⟩
        · rw [hacc, accepted_append, List.append_assoc]
          congr 1
          have hone : accepted buf [⟨off, count, (min room count : Nat)⟩] =
              (buf.drop off).take (min room count) := by
            simp only [accepted, List.flatMap_cons, List.flatMap_nil, List.append_nil,
              Int.toNat_ofNat]
          rw [hone, ← List.drop_drop, List.take_append_drop]
        · rw [hnew, List.append_assoc]
          rfl
        · intro c hc
          rcases List.mem_cons.mp hc with rfl | hc
          · exact ⟨hlen, hpos⟩
          · exact hall c hc
        · rw [hused]
          rfl
        · simp [hlenu]

/-- A script without failures other than `EINTR` whose answers that accept something are at
least as many as the at most `INT_MAX` bytes to write lets `xwrite` return. -/
theorem xwrite_returns : ∀ (script : List write_result) (errno off count : Nat)
    (calls : List write_call), count ≤ INT_MAX →
    (∀ r ∈ script, r = .fails EINTR ∨ ∃ n, r = .accepts n) →
    count ≤ (script.filter accepts_some).length →
    ∃ res, xwrite errno off count calls script = .returned res := by
  intro script
  induction script with
  | nil =>
    intro errno off count calls _ _ hcount
    have h0 : count = 0 := by simpa using hcount
    subst h0
    exact ⟨_, xwrite_zero _ _ _ _⟩
  | cons a script ih =>
    intro errno off count calls hmax hall hcount
    by_cases h0 : count = 0
    · subst h0
      exact ⟨_, xwrite_zero _ _ _ _⟩
    · have hpos : 0 < count := Nat.pos_of_ne_zero h0
      have hall' : ∀ r ∈ script, r = .fails EINTR ∨ ∃ n, r = .accepts n :=
        fun r hr => hall r (List.mem_cons_of_mem _ hr)
      rcases hall a (List.mem_cons_self _ _) with rfl | ⟨n, rfl⟩
      · rw [xwrite_eintr _ _ _ _ _ hpos]
        apply ih _ _ _ _ hmax hall'
        simpa [accepts_some] using hcount
      · rw [xwrite_accepts_step _ _ _ _ _ _ hpos hmax]
        apply ih _ _ _ _ (by omega) hall'
        by_cases hn : 0 < n
        · have hf : (List.filter accepts_some (.accepts n :: script)).length =
              (List.filter accepts_some script).length + 1 := by
            simp [accepts_some, hn]
          rw [hf] at hcount
          have : 1 ≤ min n count := Nat.le_min.mpr ⟨hn, hpos⟩
          omega
        · have hf : (List.filter accepts_some (.accepts n :: script)).length =
              (List.filter accepts_some script).length := by
            simp [accepts_some, hn]
          rw [hf] at hcount
          omega

/-- For at most `INT_MAX` bytes, the first failure other than `EINTR` is fatal unless the
buffer was drained before. -/
theorem xwrite_first_failure : ∀ (pre : List write_result) (errno off count : Nat)
    (calls : List write_call) (e : Nat) (post : List write_result), count ≤ INT_MAX →
    (∀ r ∈ pre, r = .fails EINTR ∨ ∃ n, r = .accepts n) → e ≠ EINTR →
    (∃ res, xwrite errno off count calls (pre ++ .fails e :: post) = .returned res) ∨
      xwrite errno off count calls (pre ++ .fails e :: post) =
        .aborted (.xwrite_error e) := by
  intro pre
  induction pre with
  | nil =>
    intro errno off count calls e post _ _ he
    by_cases h0 : count = 0
    · subst h0
      exact Or.inl ⟨_, xwrite_zero _ _ _ _⟩
    · exact Or.inr (xwrite_fails _ _ _ _ _ _ (Nat.pos_of_ne_zero h0) he)
  | cons a pre ih =>
    intro errno off count calls e post hmax hall he
    have hall' : ∀ r ∈ pre, r = .fails EINTR ∨ ∃ n, r = .accepts n :=
      fun r hr => hall r (List.mem_cons_of_mem _ hr)
    by_cases h0 : count = 0
    · subst h0
      exact Or.inl ⟨_, xwrite_zero _ _ _ _⟩
    · have hpos : 0 < count := Nat.pos_of_ne_zero h0
      rw [List.cons_append]
      rcases hall a (List.mem_cons_self _ _) with rfl | ⟨n, rfl⟩
      · rw [xwrite_eintr _ _ _ _ _ hpos]
        exact ih _ _ _ _ e post hmax hall' he
      · rw [xwrite_accepts_step _ _ _ _ _ _ hpos hmax]
        exact ih _ _ _ _ e post (by omega) hall' he

/-- C18, as stated, fails for buffers above `INT_MAX` bytes, where the count that `write`
returns does not fit `int ret`. With 2147483648 bytes the kernel takes them all in one call,
no call fails, and `xwrite` aborts, `ret` being negative. With 4294967301 bytes the kernel
again takes all that is offered in every call; `ret` is 5 and then 0, and `xwrite` is still
calling `write` when the answers run out. -/
theorem xwrite_drains_counterexample :
    xwrite 0 0 2147483648 [] [.accepts 2147483648] = .aborted (.xwrite_error 0) ∧
    xwrite 0 0 4294967301 [] [.accepts 4294967301, .accepts 4294967296, .accepts 4294967296] =
      .blocked :=
  ⟨rfl, rfl⟩

/-- C18, amended (`xwrite` fully drains short writes of at most `INT_MAX` bytes, which
covers the at most 8192 bytes of a batch). With nothing to write `xwrite` returns at once,
issuing no `write` call; with bytes left, an `EINTR` failure makes it repeat the call on the
same remaining range, an accepted count `n` makes it advance by exactly `n`, and any other
failure makes it abort; so in a script of `EINTR` failures and accepted counts followed by
another failure, that failure is fatal unless the buffer was drained before it. Whenever
`xwrite` returns, every call offered the whole remaining range, one answer of the kernel was
used per call, and the bytes accepted over the calls, concatenated in order, are the whole
buffer. It does return when the script holds no other failure and enough answers that
accept something. None of this depends on the value of `errno` on entry. -/
theorem xwrite_drains {α : Type} (buf : List α) (hmax : buf.length ≤ INT_MAX) :
    (∀ errno off calls script, xwrite errno off 0 calls script = .returned (calls, script)) ∧
    (∀ errno off count calls rest, 0 < count →
      xwrite errno off count calls (.fails EINTR :: rest) =
        xwrite EINTR off count (calls ++ [⟨off, count, -1⟩]) rest) ∧
    (∀ errno off count calls rest n, 0 < count → n ≤ count → count ≤ INT_MAX →
      xwrite errno off count calls (.accepts n :: rest) =
        xwrite errno (off + n) (count - n) (calls ++ [⟨off, count, (n : Nat)⟩]) rest) ∧
    (∀ errno off count calls rest e, 0 < count → e ≠ EINTR →
      xwrite errno off count calls (.fails e :: rest) = .aborted (.xwrite_error e)) ∧
    (∀ errno pre e post, (∀ r ∈ pre, r = .fails EINTR ∨ ∃ n, r = .accepts n) →
      e ≠ EINTR →
      (∃ res, xwrite errno 0 buf.length [] (pre ++ .fails e :: post) = .returned res) ∨
        xwrite errno 0 buf.length [] (pre ++ .fails e :: post) =
          .aborted (.xwrite_error e)) ∧
    (∀ errno script calls rest,
      xwrite errno 0 buf.length [] script = .returned (calls, rest) →
      accepted buf calls = buf ∧
      (∀ c ∈ calls, c.off + c.count = buf.length ∧ 0 < c.count) ∧
      ∃ used, script = used ++ rest ∧ used.length = calls.length) ∧
    (∀ errno script, (∀ r ∈ script, r = .fails EINTR ∨ ∃ n, r = .accepts n) →
      buf.length ≤ (script.filter accepts_some).length →
      ∃ res, xwrite errno 0 buf.length [] script = .returned res) ∧
    (∀ e₁ e₂ script, xwrite e₁ 0 buf.length [] script = xwrite e₂ 0 buf.length [] script) := by
  refine ⟨xwrite_zero, xwrite_eintr, ?_, xwrite_fails, ?_, ?_, ?_, ?_⟩
  · intro errno off count calls rest n hpos hn hc
    exact xwrite_short errno off count calls rest n hpos hn hc
  · intro errno pre e post hall he
    exact xwrite_first_failure pre errno 0 buf.length [] e post hmax hall he
  · intro errno script calls rest h
    obtain ⟨hacc, new, hnew, hall, used, hused, hlen⟩ :=
      xwrite_returned_spec buf hmax script errno 0 buf.length [] calls rest h (by simp)
    rw [List.nil_append] at hnew
    subst hnew
    refine ⟨?_, hall, used, hused, hlen⟩
    rw [hacc]
    simp [accepted]
  · intro errno script hall hcount
    exact xwrite_returns script errno 0 buf.length [] hmax hall hcount
  · intro e₁ e₂ script
    exact xwrite_entry_errno script e₁ e₂ 0 buf.length [] hmax

/-- Witness of C18 (amended): five bytes, an interrupted call, two bytes accepted, another
interrupted call, the last three bytes accepted; `xwrite` returns after four calls and the
accepted bytes are the buffer. -/
theorem xwrite_drains_witness :
    ∃ rest,
      xwrite 0 0 5 [] [.fails EINTR, .accepts 2, .fails EINTR, .accepts 3, .fails 5] =
        .returned ([⟨0, 5, -1⟩, ⟨0, 5, 2⟩, ⟨2, 3, -1⟩, ⟨2, 3, 3⟩], rest) ∧
      accepted [10, 20, 30, 40, 50] [⟨0, 5, -1⟩, ⟨0, 5, 2⟩, ⟨2, 3, -1⟩, ⟨2, 3, 3⟩] =
        [10, 20, 30, 40, 50] :=
  ⟨_, rfl,
    ((xwrite_drains [10, 20, 30, 40, 50] (by decide)).2.2.2.2.2.1 0
      [.fails EINTR, .accepts 2, .fails EINTR, .accepts 3, .fails 5] _ _ rfl).1⟩

/-! ## The kernel mask -/

theorem and_not_land_of_disjoint (a c m : Nat) (h : c &&& m = 0) :
    and_not a c &&& m = a &&& m := by
  unfold and_not
  rw [Nat.and_xor_distrib_right, Nat.and_assoc, h, Nat.and_zero, Nat.xor_zero]

theorem bits_to_poll_mask_cases (bits : Nat) :
    (bits &&& MASKIN ≠ 0 ∧ bits &&& MASKOUT ≠ 0 ∧
        bits_to_poll_mask bits = POLLIN ||| POLLOUT) ∨
      (bits &&& MASKIN ≠ 0 ∧ ¬ bits &&& MASKOUT ≠ 0 ∧ bits_to_poll_mask bits = POLLIN) ∨
      (¬ bits &&& MASKIN ≠ 0 ∧ bits &&& MASKOUT ≠ 0 ∧ bits_to_poll_mask bits = POLLOUT) ∨
      (¬ bits &&& MASKIN ≠ 0 ∧ ¬ bits &&& MASKOUT ≠ 0 ∧ bits_to_poll_mask bits = 0) := by
  unfold bits_to_poll_mask
  by_cases h1 : bits &&& MASKIN ≠ 0 <;> by_cases h2 : bits &&& MASKOUT ≠ 0
  · exact Or.inl ⟨h1, h2, by simp only [if_pos h1, if_pos h2]; decide⟩
  · exact Or.inr (Or.inl ⟨h1, h2, by simp only [if_pos h1, if_neg h2]; decide⟩)
  · exact Or.inr (Or.inr (Or.inl ⟨h1, h2, by simp only [if_neg h1, if_pos h2]; decide⟩))
  · exact Or.inr (Or.inr (Or.inr ⟨h1, h2, by simp only [if_neg h1, if_neg h2]⟩))

theorem bits_to_poll_mask_congr {a b : Nat} (hin : a &&& MASKIN = b &&& MASKIN)
    (hout : a &&& MASKOUT = b &&& MASKOUT) : bits_to_poll_mask a = bits_to_poll_mask b := by
  unfold bits_to_poll_mask
  rw [hin, hout]

/-- C19 (the kernel interest mask ignores `ERR`). For every readiness mask `bits`,
`bits_to_poll_mask bits` has `POLLIN` iff `bits` has `IN`, has `POLLOUT` iff `bits` has
`OUT`, and has no other bit, so it is the same for `bits` with `ERR` cleared, and it is 0
for `ERR` alone. For a queued record `p` with `wanted_bands = ERR`, the queued records
carrying distinct descriptor numbers: with a cooperative kernel the flush returns, and
whenever it returns the entries it wrote for the descriptor of `p` end with an add entry
whose interest mask is 0 (after the removal entry, if `registered_bands` had `IN` or
`OUT`). -/
theorem mask_ignores_err (bits : Nat) (st : iv_state) (p : Ptr) (hp : p ∈ st.notify)
    (hkeys : queue_keys_unique st) (hw : (st.mem p).wanted_bands = MASKERR) :
    ((bits_to_poll_mask bits &&& POLLIN ≠ 0 ↔ bits &&& MASKIN ≠ 0) ∧
      (bits_to_poll_mask bits &&& POLLOUT ≠ 0 ↔ bits &&& MASKOUT ≠ 0) ∧
      and_not (bits_to_poll_mask bits) (POLLIN ||| POLLOUT) = 0 ∧
      bits_to_poll_mask (and_not bits MASKERR) = bits_to_poll_mask bits ∧
      bits_to_poll_mask MASKERR = 0) ∧
    (cooperative st.writes st.notify.length = true →
      ∃ st', iv_dev_poll_flush_pending st = .returned st') ∧
    ∀ st', iv_dev_poll_flush_pending st = .returned st' →
      written_for (st.mem p).fd st'.log =
        written_for (st.mem p).fd st.log ++
          ((if and_not (st.mem p).registered_bands MASKERR ≠ 0
              then [⟨(st.mem p).fd, POLLREMOVE⟩] else []) ++
            [⟨(st.mem p).fd, 0⟩]) := by
  refine ⟨⟨?_, ?_, ?_, ?_, by decide⟩, flush_pending_returns, ?_⟩
  · rcases bits_to_poll_mask_cases bits with ⟨h1, _, hm⟩ | ⟨h1, _, hm⟩ | ⟨h1, _, hm⟩ |
      ⟨h1, _, hm⟩ <;> rw [hm] <;>
      first
        | exact iff_of_true (by decide) h1
        | exact iff_of_false (by decide) h1
  · rcases bits_to_poll_mask_cases bits with ⟨_, h2, hm⟩ | ⟨_, h2, hm⟩ | ⟨_, h2, hm⟩ |
      ⟨_, h2, hm⟩ <;> rw [hm] <;>
      first
        | exact iff_of_true (by decide) h2
        | exact iff_of_false (by decide) h2
  · rcases bits_to_poll_mask_cases bits with ⟨_, _, hm⟩ | ⟨_, _, hm⟩ | ⟨_, _, hm⟩ |
      ⟨_, _, hm⟩ <;> rw [hm] <;> decide
  · exact bits_to_poll_mask_congr
      (and_not_land_of_disjoint bits MASKERR MASKIN (by decide))
      (and_not_land_of_disjoint bits MASKERR MASKOUT (by decide))
  · intro st' h
    rw [flush_written_for_queued h hkeys hp]
    congr 1
    unfold fd_entries
    rw [hw, if_pos (by decide : MASKERR ≠ 0)]
    rfl

/-- Witness of C19 on the sample state: descriptor 5, with nothing registered, wants `ERR`
alone; the flush writes for it the single add entry with the interest mask 0. -/
theorem mask_ignores_err_witness :
    ∃ st', iv_dev_poll_flush_pending (announce sample_state [(5, MASKERR)]) = .returned st' ∧
      written_for 5 st'.log = [⟨5, 0⟩] :=
  have thm := mask_ignores_err MASKERR (announce sample_state [(5, MASKERR)]) 5
    (by decide) (by decide) rfl
  let ⟨st', h⟩ := thm.2.1 (by decide)
  ⟨st', h, thm.2.2 st' h⟩

end IvDevPoll
